import Mathlib

/-!
Verification of the recursive chunking engine of the `chonkie` repository
(`src/chonkie/chunker/recursive.py` and `src/chonkie/types/recurisve.py`).

Text is modelled as `List Char` (`Str`), matching Python's code-point level
string semantics (`len`, slicing and `str.index` all count code points).
Machine integers are `Nat`; the only floating-point computation in the code,
`len(text) // 6.5`, is the exact mathematical floor `(2 * len) / 13`, which
`Nat` division computes.  The external tokenizer is a parameter (`Tokenizer`),
mirroring the spec's external-capability interface.  Loops whose Python
counterparts advance an index are written with an explicit fuel argument that
the callers instantiate with a provably sufficient bound, so every definition
is executable by the kernel.
-/

namespace Chonkie

/-- Texts at the Python code-point level. -/
abbrev Str := List Char

/-- The private separator marker `self.sep = "✄"` of `RecursiveChunker`. -/
def sepChar : Char := '✄'

/-- Python `str.replace(pat, rep)` (all non-overlapping occurrences, left to
right), fuelled; each step consumes at least one character, so fuel
`s.length` is exact.  Python inserts `rep` at every position when `pat` is
empty; the chunker only calls this with validated, non-empty delimiters, and
for `pat = []` this model leaves the text unchanged. -/
def replaceAllAux (pat rep : Str) : Nat → Str → Str
  | _, [] => []
  | 0, s => s
  | fuel + 1, c :: rest =>
    if pat ≠ [] ∧ pat.isPrefixOf (c :: rest) then
      rep ++ replaceAllAux pat rep fuel ((c :: rest).drop pat.length)
    else
      c :: replaceAllAux pat rep fuel rest

/-- Python `s.replace(pat, rep)`. -/
def replaceAll (s pat rep : Str) : Str :=
  replaceAllAux pat rep s.length s

/-- Python `s.split(sep)` for a one-character separator, keeping empty
parts (`''.split(x) = ['']`). -/
def splitOnChar (sep : Char) : Str → List Str
  | [] => [[]]
  | c :: rest =>
    if c = sep then [] :: splitOnChar sep rest
    else
      match splitOnChar sep rest with
      | [] => [[c]]
      | h :: t => (c :: h) :: t

/-- Python `hay.index(needle)` as an `Option`: the least code-point index at
which `needle` occurs in `hay`, or `none` (Python raises `ValueError`). -/
def findSub (needle : Str) : Str → Option Nat
  | [] => if needle = [] then some 0 else none
  | c :: rest =>
    if needle.isPrefixOf (c :: rest) then some 0
    else (findSub needle rest).map (· + 1)

/-- Python `[encoded[i : i + cs] for i in range(0, len(encoded), cs)]`,
fuelled; for `cs ≥ 1` fuel `l.length` is sufficient.  (`cs = 0` cannot occur:
the constructor rejects `chunk_size <= 0`.) -/
def windowsAux (cs : Nat) : Nat → List Nat → List (List Nat)
  | _, [] => []
  | 0, _ :: _ => []
  | fuel + 1, c :: rest =>
    (c :: rest).take cs :: windowsAux cs fuel ((c :: rest).drop cs)

/-- Consecutive windows of at most `cs` token ids. -/
def windows (cs : Nat) (l : List Nat) : List (List Nat) :=
  windowsAux cs l.length l

/-- The short-split merging loop of `_split_text` (lines 107-127 of
`recursive.py`): the loop state is the accumulator string `current`; each
iteration either extends the accumulator or flushes it, and the trailing
accumulator is flushed at the end. -/
def mergeShortAux (minc : Nat) : List Str → Str → List Str
  | [], current => if current.isEmpty then [] else [current]
  | split :: rest, current =>
    let state1 :=
      if split.length < minc then (([] : List Str), current ++ split)
      else if ¬ current.isEmpty then ([current ++ split], ([] : Str))
      else ([split], ([] : Str))
    let state2 :=
      if minc ≤ state1.2.length then (state1.1 ++ [state1.2], ([] : Str))
      else state1
    state2.1 ++ mergeShortAux minc rest state2.2

/-- Merging of splits shorter than `min_characters_per_chunk` into their
right neighbours. -/
def mergeShort (minc : Nat) (splits : List Str) : List Str :=
  mergeShortAux minc splits []

/-- Index of the first element that is `≥ x`, or the length when none is. -/
def firstAtLeast (x : Nat) : List Nat → Nat
  | [] => 0
  | v :: rest => if x ≤ v then 0 else firstAtLeast x rest + 1

/-- Python `bisect.bisect_left(a, x, lo)` on a sorted list: the least
position `p ≥ lo` with `x ≤ a[p]`, or `a.length` when there is none.  The
chunker only ever bisects cumulative sums of natural numbers, which are
monotone, so this linear characterisation coincides with binary search. -/
def bisectLeft (a : List Nat) (x lo : Nat) : Nat :=
  lo + firstAtLeast x (a.drop lo)

/-- The list `accumulate([0] + token_counts)` of `_merge_splits`, with the
`+1`-per-element variant used when `combine_whitespace` is set. -/
def cumulativeCounts (ws : Bool) (tcs : List Nat) : List Nat :=
  (List.range (tcs.length + 1)).map
    (fun i => (tcs.take i).sum + if ws then i else 0)

/-- The `while current_index < len(splits)` loop of `_merge_splits`
(lines 208-238 of `recursive.py`), fuelled; each iteration advances
`current_index` by at least one when `chunk_size ≥ 1`, so fuel
`splits.length` suffices from `current_index = 0`. -/
def mergeSplitsCore (cs : Nat) (ws : Bool) (splits : List Str)
    (cums : List Nat) : Nat → Nat → List Str × List Nat
  | 0, _ => ([], [])
  | fuel + 1, ci =>
    if ci < splits.length then
      let cur := cums.getD ci 0
      let required := cur + cs
      let idx0 := min (bisectLeft cums required ci - 1) splits.length
      let idx := if idx0 = ci then ci + 1 else idx0
      let grp := (splits.drop ci).take (idx - ci)
      let gtext := if ws then List.intercalate [' '] grp else grp.flatten
      let gcount := cums.getD (min idx splits.length) 0 - cur
      let rest := mergeSplitsCore cs ws splits cums fuel idx
      (gtext :: rest.1, gcount :: rest.2)
    else ([], [])

/-- The `_merge_splits` method: guard clauses (empty input, length mismatch,
all-over-budget short circuit) followed by the cumulative-sum merge loop. -/
def mergeSplits (cs : Nat) (splits : List Str) (tcs : List Nat)
    (ws : Bool) : Except String (List Str × List Nat) :=
  if splits.isEmpty ∨ tcs.isEmpty then .ok ([], [])
  else if splits.length ≠ tcs.length then
    .error "Number of splits does not match number of token counts"
  else if tcs.all (fun c => cs < c) then .ok (splits, tcs)
  else .ok (mergeSplitsCore cs ws splits (cumulativeCounts ws tcs)
      (splits.length + 1) 0)

/-- The external tokenizer/token-counter capability (spec §6); the core is
polymorphic over any provider of this interface. -/
structure Tokenizer where
  countTokens : Str → Nat
  encode : Str → List Nat
  decodeBatch : List (List Nat) → List Str

/-- The `_estimate_token_count` method, with a flag recording whether the
external tokenizer was invoked.  Python's `len(text) // 6.5` is the exact
floor `(2 * len) / 13`.  (`functools.lru_cache` memoisation is semantically
transparent for this pure function.) -/
def estimateTokenCountCall (tok : Tokenizer) (cs : Nat) (text : Str) :
    Nat × Bool :=
  let estimate := max 1 (2 * text.length / 13)
  if cs < estimate then (cs + 1, false) else (tok.countTokens text, true)

/-- The value computed by `_estimate_token_count`. -/
def estimateTokenCount (tok : Tokenizer) (cs : Nat) (text : Str) : Nat :=
  (estimateTokenCountCall tok cs text).1

/-- Delimiter placement: Python `include_delim` is
`Literal["prev", "next"] | None`; `none` selects the bare-replacement
(`drop`) branch of `_split_text`. -/
inductive IncludeDelim where
  | prev
  | next
deriving DecidableEq, Repr

/-- A splitting rule as consumed by the chunker (`recursive_level.whitespace`,
`.delimiters`, `.include_delim` in `_split_text` / `_recursive_chunk`). -/
structure RecursiveLevel where
  whitespace : Bool := false
  delimiters : Option (List Str) := none
  includeDelim : Option IncludeDelim := some .prev
deriving DecidableEq, Repr

instance : Inhabited RecursiveLevel := ⟨{}⟩

/-- The delimiter-rewrite pass of `_split_text`: every delimiter occurrence
has the separator injected after it (`prev`), before it (`next`), or in its
place (`none`, Python's `include_delim = None`). -/
def applyDelims (inc : Option IncludeDelim) (ds : List Str) (text : Str) :
    Str :=
  match inc with
  | some .prev => ds.foldl (fun t d => replaceAll t d (d ++ [sepChar])) text
  | some .next => ds.foldl (fun t d => replaceAll t d (sepChar :: d)) text
  | none => ds.foldl (fun t d => replaceAll t d [sepChar]) text

/-- The `_split_text` method.  Python truthiness: an *empty* delimiter list
is falsy, so `delimiters = some []` falls through to the tokenizer-window
branch exactly as `delimiters = none` does. -/
def splitText (tok : Tokenizer) (cs minc : Nat) (text : Str)
    (rule : RecursiveLevel) : List Str :=
  if rule.whitespace then splitOnChar ' ' text
  else
    match rule.delimiters with
    | some ds =>
      if ds = [] then
        tok.decodeBatch (windows cs (tok.encode text))
      else
        let t := applyDelims rule.includeDelim ds text
        let splits := (splitOnChar sepChar t).filter (· ≠ [])
        mergeShort minc splits
    | none => tok.decodeBatch (windows cs (tok.encode text))

/-- A finalized Chunk Record.  The base `Chunk` dataclass lives in
`chonkie/types/base.py`, which is not under `src/`; its fields `text`,
`start_index`, `end_index`, `token_count` are modelled from the spec's Chunk
Record (spec §3), together with the `level` field that `_make_chunks`
supplies. -/
structure RecursiveChunk where
  text : Str
  startIndex : Nat
  endIndex : Nat
  tokenCount : Nat
  level : Nat
deriving DecidableEq, Repr

/-- The `_make_chunks` method: the fragment is located in
`full_text[last_chunk_end_index:]`; on a miss (Python `str.index` raising)
both offsets degrade to `0` and the failure is printed, not raised. -/
def makeChunks (text : Str) (tokenCount level : Nat)
    (fullText : Option Str) (lastEnd : Nat := 0) : RecursiveChunk :=
  let ft := fullText.getD text
  match findSub text (ft.drop lastEnd) with
  | some i =>
    { text := text, startIndex := lastEnd + i,
      endIndex := lastEnd + i + text.length,
      tokenCount := tokenCount, level := level }
  | none =>
    { text := text, startIndex := 0, endIndex := 0,
      tokenCount := tokenCount, level := level }

/-- The emission loop of `_recursive_chunk` (lines 286-308): over-budget
merged fragments are replaced by the recursion's output (the `recurse`
parameter), in-budget ones are finalized at the current level, with
`last_chunk_end_index` taken from the previously emitted chunk. -/
def emitChunks (recurse : Str → List RecursiveChunk) (cs level : Nat)
    (searchText : Str) :
    List (Str × Nat) → List RecursiveChunk → List RecursiveChunk
  | [], acc => acc
  | (m, tc) :: rest, acc =>
    if cs < tc then
      emitChunks recurse cs level searchText rest (acc ++ recurse m)
    else
      let lastEnd := ((acc.getLast?).map (·.endIndex)).getD 0
      emitChunks recurse cs level searchText rest
        (acc ++ [makeChunks m tc level (some searchText) lastEnd])

/-- The `_recursive_chunk` driver in chunk-records mode, fuelled over
hierarchy levels (`chunk` supplies fuel `rules.length + 1`, which always
suffices since each recursion step increments `level`).  The recursive call
models `self._chunk_helper(split, level + 1, full_text)`; `_chunk_helper` is
declared on the base class outside `src/` and is modelled from spec §4.6 as
the recursive driver itself.  The `toOption.getD` on the packer result only
discharges the length-mismatch `ValueError`, which cannot fire here since
the token counts are mapped over the fragments. -/
def recursiveChunkAux (tok : Tokenizer) (rules : List RecursiveLevel)
    (cs minc : Nat) : Nat → Str → Nat → Option Str → List RecursiveChunk
  | 0, _, _, _ => []
  | fuel + 1, text, level, fullText =>
    if text = [] then []
    else if rules.length ≤ level then
      [makeChunks text (estimateTokenCount tok cs text) level fullText 0]
    else
      let ft := fullText.getD text
      let rule := rules.getD level default
      let splits := splitText tok cs minc text rule
      let tcs := splits.map (estimateTokenCount tok cs)
      let md :=
        if rule.delimiters = none then
          if rule.whitespace then
            (mergeSplits cs splits tcs true).toOption.getD ([], [])
          else (splits, tcs)
        else (mergeSplits cs splits tcs false).toOption.getD ([], [])
      let noDelim := rule.delimiters = none ∧ rule.whitespace = false
      let searchText := if noDelim then md.1.flatten else ft
      emitChunks
        (fun s => recursiveChunkAux tok rules cs minc fuel s (level + 1)
          (some ft))
        cs level searchText (md.1.zip md.2) []

/-- The public `chunk` entry point in chunk-records mode:
`_recursive_chunk(text, level=0, full_text=text)`. -/
def chunkRecords (tok : Tokenizer) (rules : List RecursiveLevel)
    (cs minc : Nat) (text : Str) : List RecursiveChunk :=
  recursiveChunkAux tok rules cs minc (rules.length + 1) text 0 (some text)

/-! ### The validation model of `RecursiveLevel` (`types/recurisve.py`)

The dataclass accepts `custom_delimiters` as a bare string, a list of
strings, or `None`; `_validate_fields` branches on `isinstance`. -/

/-- Python's `list[str] | str` union for `custom_delimiters`. -/
inductive CustomDelimiters where
  | str (s : Str)
  | list (l : List Str)
deriving DecidableEq, Repr

/-- The `RecursiveLevel` dataclass as declared in `types/recurisve.py`
(fields `whitespace_delimiter`, `custom_delimiters`, `include_delim`). -/
structure RecursiveLevelRaw where
  whitespaceDelimiter : Bool := false
  customDelimiters : Option CustomDelimiters := none
  includeDelim : Option IncludeDelim := some .prev
deriving DecidableEq, Repr

/-- The `_validate_fields` method: mutual exclusivity, then the
empty-delimiter check (string and list forms), then the single-space check —
which the source performs only inside the `isinstance(..., list)` branch. -/
def validateFields (r : RecursiveLevelRaw) : Except String Unit :=
  if r.customDelimiters ≠ none ∧ r.whitespaceDelimiter then
    .error "Cannot use whitespace as a delimiter and also specify custom delimiters."
  else
    match r.customDelimiters with
    | some (.str s) =>
      if s.length = 0 then .error "Custom delimiters cannot be an empty string."
      else .ok ()
    | some (.list l) =>
      if l.any (fun d => d.length = 0) then
        .error "Custom delimiters cannot be an empty string."
      else if l.any (fun d => d = [' ']) then
        .error "Custom delimiters cannot be whitespace only. Set whitespace_delimiter to True instead."
      else .ok ()
    | none => .ok ()

/-! ### Spec-side definitions

These follow the spec's words (for the refinement claims C5 and C1), to be
compared against the source-derived definitions above. -/

/-- Cumulative token cost of the first `i` fragments under the packer's
accounting: in whitespace-join mode the source adds one per fragment. -/
def cumCost (ws : Bool) (tcs : List Nat) (i : Nat) : Nat :=
  (tcs.take i).sum + if ws then i else 0

/-- Modelled from the spec: the next merge boundary after `ci` is the
furthest `j ≤ n` such that the run `[ci, j)` of fragments has cumulative
cost strictly below `chunk_size`, clamped to at least one fragment per
group. -/
def specNextBoundary (cs : Nat) (cum : Nat → Nat) (n ci : Nat) : Nat :=
  max (ci + 1)
    (Nat.findGreatest (fun j => ci < j ∧ cum j - cum ci < cs) n)

/-- Modelled from the spec (amended): greedy maximal-prefix packing with the
strict budget test, producing the merged fragments and their costs. -/
def specMergeAux (cs : Nat) (ws : Bool) (splits : List Str)
    (cum : Nat → Nat) : Nat → Nat → List Str × List Nat
  | 0, _ => ([], [])
  | fuel + 1, ci =>
    if ci < splits.length then
      let nb := specNextBoundary cs cum splits.length ci
      let grp := (splits.drop ci).take (nb - ci)
      let rest := specMergeAux cs ws splits cum fuel nb
      ((if ws then List.intercalate [' '] grp else grp.flatten) :: rest.1,
        (cum nb - cum ci) :: rest.2)
    else ([], [])

/-- Greedy strict-budget packer, from fragment `0`. -/
def specMergeSplits (cs : Nat) (ws : Bool) (splits : List Str)
    (tcs : List Nat) : List Str × List Nat :=
  specMergeAux cs ws splits (cumCost ws tcs) (splits.length + 1) 0

/-- Modelled from the spec: claim C5's literal budget test for the run
`[ci, j)` — cumulative token count, plus one per *join* in whitespace-join
mode, not exceeding (`≤`) `chunk_size`. -/
def claimNextBoundary (cs : Nat) (ws : Bool) (tcs : List Nat) (ci : Nat) :
    Nat :=
  max (ci + 1)
    (Nat.findGreatest
      (fun j => ci < j ∧
        ((tcs.take j).sum - (tcs.take ci).sum) + (if ws then j - ci - 1 else 0)
          ≤ cs)
      tcs.length)

/-- Modelled from the spec: the merged groups that claim C5, read literally,
predicts for the packer. -/
def claimMergeGroups (cs : Nat) (ws : Bool) (splits : List Str)
    (tcs : List Nat) : Nat → Nat → List Str
  | 0, _ => []
  | fuel + 1, ci =>
    if ci < splits.length then
      let nb := claimNextBoundary cs ws tcs ci
      let grp := (splits.drop ci).take (nb - ci)
      (if ws then List.intercalate [' '] grp else grp.flatten) ::
        claimMergeGroups cs ws splits tcs fuel nb
    else []

/-- Grouping variant of the short-split merging loop: the same control flow
as `mergeShortAux`, collecting each emitted fragment as the list of input
fragments it concatenates (the accumulator string is the flattening of the
accumulator group). -/
def mergeShortGroupsAux (minc : Nat) : List Str → List Str → List (List Str)
  | [], curg => if curg.flatten.isEmpty then [] else [curg]
  | split :: rest, curg =>
    let state1 :=
      if split.length < minc then (([] : List (List Str)), curg ++ [split])
      else if ¬ curg.flatten.isEmpty then ([curg ++ [split]], ([] : List Str))
      else ([[split]], ([] : List Str))
    let state2 :=
      if minc ≤ state1.2.flatten.length then
        (state1.1 ++ [state1.2], ([] : List Str))
      else state1
    state2.1 ++ mergeShortGroupsAux minc rest state2.2

/-- The grouping of input fragments that the short-split merge emits. -/
def mergeShortGroups (minc : Nat) (splits : List Str) : List (List Str) :=
  mergeShortGroupsAux minc splits []

/-- A character-level tokenizer: one token per character, with exact
decoding.  Used to instantiate the external capability in witnesses. -/
def charTok : Tokenizer :=
  { countTokens := fun s => s.length,
    encode := fun s => s.map Char.toNat,
    decodeBatch := fun ls => ls.map (fun l => l.map Char.ofNat) }

/-- A degenerate tokenizer whose counter always answers `0` and whose
encoder forgets its input; a legal provider of the external interface. -/
def zeroTok : Tokenizer :=
  { countTokens := fun _ => 0, encode := fun _ => [], decodeBatch := fun _ => [] }

/-! ## Claim C6: packer short-circuit identity -/

/-- C6: for every pair of equal-length fragment and token-count lists in
which every token count exceeds `chunk_size`, `_merge_splits` returns both
input lists unchanged (no merging attempted). -/
theorem merge_splits_short_circuit (cs : Nat) (splits : List Str)
    (tcs : List Nat) (ws : Bool) (hlen : splits.length = tcs.length)
    (hall : ∀ c ∈ tcs, cs < c) :
    mergeSplits cs splits tcs ws = .ok (splits, tcs) := by
  unfold mergeSplits
  by_cases he : splits.isEmpty ∨ tcs.isEmpty
  · have hs : splits = [] := by
      rcases he with h | h
      · exact List.isEmpty_iff.mp h
      · have ht := List.isEmpty_iff.mp h
        rw [ht] at hlen
        exact List.length_eq_zero.mp hlen
    have ht : tcs = [] := by
      rw [hs] at hlen
      exact List.length_eq_zero.mp hlen.symm
    rw [if_pos he, hs, ht]
  · have hall' : tcs.all (fun c => cs < c) = true := by
      rw [List.all_eq_true]
      intro c hc
      simpa using hall c hc
    rw [if_neg he, if_neg (by simp [hlen]), if_pos hall']

/-- C6 witness: a concrete all-over-budget instance returned unchanged. -/
theorem merge_splits_short_circuit_witness :
    mergeSplits 2 [['a'], ['b', 'b']] [3, 4] false =
      .ok ([['a'], ['b', 'b']], [3, 4]) :=
  merge_splits_short_circuit 2 [['a'], ['b', 'b']] [3, 4] false (by decide)
    (by decide)

/-! ## Claim C7: estimator two-tier behaviour -/

/-- C7 counterexample: for text of length 66 and `chunk_size = 10` the
heuristic `len(text) / 6.5 = 10.15…` exceeds `chunk_size` (equivalently
`13 * 10 < 2 * 66`), yet the code invokes the external tokenizer and returns
its count (here `0`, not `chunk_size + 1 = 11`), because the source floors
the estimate: `max(1, len(text) // 6.5) = 10` is not `> 10`. -/
theorem estimate_token_count_counterexample :
    13 * 10 < 2 * (List.replicate 66 'a').length ∧
      estimateTokenCountCall zeroTok 10 (List.replicate 66 'a') = (0, true) := by
  constructor
  · decide
  · decide

/-- C7 amended: the short-circuit tests the floored heuristic
`max(1, ⌊len(text) / 6.5⌋) > chunk_size`, i.e. fires exactly when
`2 * len(text) ≥ 13 * (chunk_size + 1)`; below that bound (for a positive
`chunk_size`) the external tokenizer's exact count is returned. -/
theorem estimate_token_count_two_tier (tok : Tokenizer) (cs : Nat)
    (text : Str) :
    (13 * (cs + 1) ≤ 2 * text.length →
      estimateTokenCountCall tok cs text = (cs + 1, false)) ∧
    (1 ≤ cs → 2 * text.length < 13 * (cs + 1) →
      estimateTokenCountCall tok cs text = (tok.countTokens text, true)) := by
  constructor
  · intro h
    have hdiv : cs + 1 ≤ 2 * text.length / 13 :=
      (Nat.le_div_iff_mul_le (by norm_num)).mpr (by omega)
    have hcond : cs < max 1 (2 * text.length / 13) := by
      have := le_max_right 1 (2 * text.length / 13)
      omega
    unfold estimateTokenCountCall
    rw [if_pos hcond]
  · intro hcs h
    have hdiv : 2 * text.length / 13 < cs + 1 :=
      (Nat.div_lt_iff_lt_mul (by norm_num)).mpr (by omega)
    have hcond : ¬ cs < max 1 (2 * text.length / 13) := by
      have := max_le (a := 1) (b := 2 * text.length / 13) (c := cs) hcs
        (by omega)
      omega
    unfold estimateTokenCountCall
    rw [if_neg hcond]

/-- C7 amended witness: both tiers at concrete inputs (`chunk_size = 1`;
a 13-character text short-circuits to `2` without invocation, a 1-character
text takes the exact count `1` from the character tokenizer). -/
theorem estimate_token_count_two_tier_witness :
    estimateTokenCountCall charTok 1 (List.replicate 13 'a') = (2, false) ∧
      estimateTokenCountCall charTok 1 ['a'] = (charTok.countTokens ['a'], true) :=
  ⟨(estimate_token_count_two_tier charTok 1 (List.replicate 13 'a')).1
      (by decide),
    (estimate_token_count_two_tier charTok 1 ['a']).2 (by decide) (by decide)⟩

/-! ## Claim C8: single-space delimiter rejection -/

/-- C8 counterexample: supplying the delimiters as the bare string `" "`
passes validation — the single-space check of `_validate_fields` runs only
inside the `isinstance(custom_delimiters, list)` branch, so the claim's
"for every way of supplying the delimiters" fails for the string form. -/
theorem validate_fields_space_string_accepted :
    validateFields
      { whitespaceDelimiter := false,
        customDelimiters := some (.str [' ']),
        includeDelim := some .prev } = .ok () := by
  rfl

/-- C8 amended: a single-space delimiter is rejected whenever the delimiters
are supplied as a *list* containing it (validation never succeeds on such a
rule); supplied as a bare string, `" "` is accepted. -/
theorem validate_fields_rejects_space_in_list (ws : Bool)
    (inc : Option IncludeDelim) (l : List Str) (h : [' '] ∈ l) :
    validateFields
      { whitespaceDelimiter := ws, customDelimiters := some (.list l),
        includeDelim := inc } ≠ .ok () := by
  unfold validateFields
  by_cases hws : ws
  · rw [if_pos (by simp [hws])]
    simp
  · rw [if_neg (by simp [hws])]
    by_cases hempty : l.any (fun d => d.length = 0)
    · simp only [hempty, if_true]
      simp
    · have hsp : l.any (fun d => d = [' ']) = true := by
        rw [List.any_eq_true]
        exact ⟨[' '], h, by simp⟩
      simp only [hempty, if_false, hsp, if_true]
      simp

/-- C8 amended witness: the default-style rule with delimiters supplied as
the list `[" "]` fails validation. -/
theorem validate_fields_rejects_space_in_list_witness :
    validateFields
      { whitespaceDelimiter := false,
        customDelimiters := some (.list [[' ']]),
        includeDelim := some .prev } ≠ .ok () :=
  validate_fields_rejects_space_in_list false (some .prev) [[' ']]
    (by decide)

/-! ## Claim C9: offset-recovery soft degradation -/

/-- C9: when the fragment's exact text cannot be located in the search text
at or after the previous chunk's end offset, `_make_chunks` does not raise;
it produces a record with `start_index = 0` and `end_index = 0` (the failure
is reported on the console by the `except` handler, not raised). -/
theorem make_chunks_offset_degradation (text : Str) (tc level : Nat)
    (ft : Str) (lastEnd : Nat)
    (h : findSub text (ft.drop lastEnd) = none) :
    makeChunks text tc level (some ft) lastEnd =
      { text := text, startIndex := 0, endIndex := 0,
        tokenCount := tc, level := level } := by
  unfold makeChunks
  simp only [Option.getD_some]
  rw [h]

/-- C9 witness: a fragment absent from the document degrades to `(0, 0)`. -/
theorem make_chunks_offset_degradation_witness :
    findSub ['x', 'y'] ((['a', 'b'] : Str).drop 0) = none ∧
      makeChunks ['x', 'y'] 5 1 (some ['a', 'b']) 0 =
        { text := ['x', 'y'], startIndex := 0, endIndex := 0,
          tokenCount := 5, level := 1 } :=
  ⟨by decide, make_chunks_offset_degradation ['x', 'y'] 5 1 ['a', 'b'] 0
    (by decide)⟩

/-! ## Claim C10: short-split merge preserves content -/

/-- Mapping flattening over the grouping variant of the short-split merge
recovers the merge itself: both loops take the same branches, the string
accumulator being the flattening of the group accumulator. -/
theorem mergeShortGroupsAux_map_flatten (minc : Nat) :
    ∀ (l : List Str) (curg : List Str),
      (mergeShortGroupsAux minc l curg).map List.flatten =
        mergeShortAux minc l curg.flatten
  | [], curg => by
    by_cases h : curg.flatten.isEmpty <;>
      simp [mergeShortGroupsAux, mergeShortAux, h]
  | split :: rest, curg => by
    have ih := mergeShortGroupsAux_map_flatten minc rest
    simp only [mergeShortGroupsAux, mergeShortAux]
    by_cases h1 : split.length < minc
    · by_cases h2 : minc ≤ (curg.map List.length).sum + split.length
      · simp [h1, h2, ih]
      · simp [h1, h2, ih]
    · by_cases h3 : curg.flatten.isEmpty
      · by_cases h2 : minc = 0
        · subst h2; simpa [h1, h3] using ih []
        · simp [h1, h3, h2, ih]
      · by_cases h2 : minc = 0
        · subst h2; simpa [h1, h3] using ih []
        · simp [h1, h3, h2, ih]

/-- Flattening the emitted grouping yields accumulator followed by input:
every input fragment lands in exactly one group, in input order, provided
all fragments are non-empty (as delimiter-mode splitting guarantees via its
`!= ""` filter). -/
theorem mergeShortGroupsAux_flatten (minc : Nat) :
    ∀ (l : List Str) (curg : List Str), (∀ s ∈ l, s ≠ []) →
      (∀ s ∈ curg, s ≠ []) →
      (mergeShortGroupsAux minc l curg).flatten = curg ++ l
  | [], curg => by
    intro _ hc
    by_cases h : curg.flatten.isEmpty
    · have : curg = [] := by
        have h' : curg.flatten = [] := by simpa using h
        rcases List.flatten_eq_nil_iff.mp h' with hall
        cases curg with
        | nil => rfl
        | cons a t => exact absurd (hall a (by simp)) (hc a (by simp))
      simp [mergeShortGroupsAux, h, this]
    · simp [mergeShortGroupsAux, h]
  | split :: rest, curg => by
    intro hl hc
    have hs : split ≠ [] := hl split (by simp)
    have hrest : ∀ s ∈ rest, s ≠ [] := fun s hsr => hl s (by simp [hsr])
    simp only [mergeShortGroupsAux]
    by_cases h1 : split.length < minc
    · have hcur : ∀ s ∈ curg ++ [split], s ≠ [] := by
        intro s hsm
        rcases List.mem_append.mp hsm with h | h
        · exact hc s h
        · simp at h; subst h; exact hs
      by_cases h2 : minc ≤ (curg.map List.length).sum + split.length
      · have ih := mergeShortGroupsAux_flatten minc rest []
          hrest (by intro s hsi; simp at hsi)
        simp [h1, h2, ih]
      · have ih := mergeShortGroupsAux_flatten minc rest (curg ++ [split])
          hrest hcur
        simp [h1, h2, ih]
    · by_cases h3 : curg.flatten.isEmpty
      · have hcurnil : curg = [] := by
          have h' : curg.flatten = [] := by simpa using h3
          rcases List.flatten_eq_nil_iff.mp h' with hall
          cases curg with
          | nil => rfl
          | cons a t => exact absurd (hall a (by simp)) (hc a (by simp))
        by_cases h2 : minc = 0
        · have ih := mergeShortGroupsAux_flatten minc rest []
            hrest (by intro s hsi; simp at hsi)
          subst h2; simp [h1, h3, ih, hcurnil]
        · have ih := mergeShortGroupsAux_flatten minc rest []
            hrest (by intro s hsi; simp at hsi)
          simp [h1, h3, h2, ih, hcurnil]
      · by_cases h2 : minc = 0
        · have ih := mergeShortGroupsAux_flatten minc rest []
            hrest (by intro s hsi; simp at hsi)
          subst h2; simp [h1, h3, ih]
        · have ih := mergeShortGroupsAux_flatten minc rest []
            hrest (by intro s hsi; simp at hsi)
          simp [h1, h3, h2, ih]

/-- C10: the short-fragment merging pass of `_split_text` emits each input
fragment exactly once and in input order — its output is the image under
concatenation of a grouping whose flattening is the input list — so
concatenating the merged fragments equals concatenating the inputs. -/
theorem merge_short_partition (minc : Nat) (splits : List Str)
    (hne : ∀ s ∈ splits, s ≠ []) :
    (mergeShortGroups minc splits).flatten = splits ∧
    mergeShort minc splits = (mergeShortGroups minc splits).map List.flatten ∧
    (mergeShort minc splits).flatten = splits.flatten := by
  have h1 : (mergeShortGroups minc splits).flatten = splits := by
    simpa [mergeShortGroups] using
      mergeShortGroupsAux_flatten minc splits [] hne (by intro s hsi; simp at hsi)
  have h2 : mergeShort minc splits =
      (mergeShortGroups minc splits).map List.flatten := by
    simpa [mergeShort, mergeShortGroups] using
      (mergeShortGroupsAux_map_flatten minc splits []).symm
  refine ⟨h1, h2, ?_⟩
  rw [h2, ← List.flatten_flatten, h1]

/-- C10 witness: a concrete short-split merge (threshold 3) regrouping
`["ab", "c", "defg"]` as `["abc", "defg"]`, content preserved. -/
theorem merge_short_partition_witness :
    (mergeShortGroups 3 [['a', 'b'], ['c'], ['d', 'e', 'f', 'g']]).flatten =
        [['a', 'b'], ['c'], ['d', 'e', 'f', 'g']] ∧
      mergeShort 3 [['a', 'b'], ['c'], ['d', 'e', 'f', 'g']] =
        (mergeShortGroups 3 [['a', 'b'], ['c'], ['d', 'e', 'f', 'g']]).map
          List.flatten ∧
      (mergeShort 3 [['a', 'b'], ['c'], ['d', 'e', 'f', 'g']]).flatten =
        [['a', 'b'], ['c'], ['d', 'e', 'f', 'g']].flatten :=
  merge_short_partition 3 [['a', 'b'], ['c'], ['d', 'e', 'f', 'g']]
    (by decide)

/-! ## Claim C5: packer maximality

The source packer stops at `bisect_left(cums, current + chunk_size) - 1`,
the last boundary whose cumulative cost is *strictly below* the budget: a
run whose cumulative cost lands exactly on `chunk_size` is cut one fragment
short of the claim's `≤` reading, and in whitespace mode the `+1` cost is
charged per fragment, not per join.  We prove the code equal to the greedy
strict-budget packer (`specMergeSplits`) and refute the literal claim. -/

theorem cumulativeCounts_length (ws : Bool) (tcs : List Nat) :
    (cumulativeCounts ws tcs).length = tcs.length + 1 := by
  simp [cumulativeCounts]

theorem cumulativeCounts_getD (ws : Bool) (tcs : List Nat) (i : Nat)
    (h : i ≤ tcs.length) :
    (cumulativeCounts ws tcs).getD i 0 = cumCost ws tcs i := by
  have hi : i < tcs.length + 1 := by omega
  simp [cumulativeCounts, cumCost, List.getD_eq_getElem?_getD,
    List.getElem?_map, List.getElem?_range hi]

theorem cumCost_mono (ws : Bool) (tcs : List Nat) {i j : Nat} (hij : i ≤ j) :
    cumCost ws tcs i ≤ cumCost ws tcs j := by
  have h1 : (tcs.take i).sum ≤ (tcs.take j).sum := by
    calc (tcs.take i).sum = ((tcs.take j).take i).sum := by
          rw [List.take_take, Nat.min_eq_left hij]
      _ ≤ ((tcs.take j).take i).sum + ((tcs.take j).drop i).sum :=
          Nat.le_add_right _ _
      _ = (tcs.take j).sum := by rw [← List.sum_append, List.take_append_drop]
  unfold cumCost
  cases ws <;> simp <;> omega

theorem firstAtLeast_le_length (x : Nat) :
    ∀ l : List Nat, firstAtLeast x l ≤ l.length
  | [] => le_refl _
  | v :: rest => by
    by_cases h : x ≤ v
    · simp [firstAtLeast, h]
    · have := firstAtLeast_le_length x rest
      simp [firstAtLeast, h]
      omega

theorem firstAtLeast_lt (x : Nat) :
    ∀ (l : List Nat) (j : Nat), j < firstAtLeast x l → l.getD j 0 < x
  | [], j => by simp [firstAtLeast]
  | v :: rest, j => by
    by_cases h : x ≤ v
    · simp [firstAtLeast, h]
    · cases j with
      | zero => intro _; simpa using Nat.lt_of_not_le h
      | succ k =>
        intro hj
        have hk : k < firstAtLeast x rest := by
          simp [firstAtLeast, h] at hj; omega
        simpa using firstAtLeast_lt x rest k hk

theorem firstAtLeast_ge (x : Nat) :
    ∀ l : List Nat, firstAtLeast x l < l.length →
      x ≤ l.getD (firstAtLeast x l) 0
  | [] => by simp [firstAtLeast]
  | v :: rest => by
    by_cases h : x ≤ v
    · simp [firstAtLeast, h]
    · intro hlen
      have hr : firstAtLeast x rest < rest.length := by
        simp [firstAtLeast, h] at hlen ⊢; omega
      simpa [firstAtLeast, h] using firstAtLeast_ge x rest hr

theorem bisectLeft_lo_le (a : List Nat) (x lo : Nat) :
    lo ≤ bisectLeft a x lo :=
  Nat.le_add_right _ _

theorem bisectLeft_le (a : List Nat) (x lo : Nat) (h : lo ≤ a.length) :
    bisectLeft a x lo ≤ a.length := by
  have h1 := firstAtLeast_le_length x (a.drop lo)
  have h2 : (a.drop lo).length = a.length - lo := by simp
  unfold bisectLeft
  omega

theorem bisectLeft_before (a : List Nat) (x lo q : Nat) (h1 : lo ≤ q)
    (h2 : q < bisectLeft a x lo) : a.getD q 0 < x := by
  have h3 : q - lo < firstAtLeast x (a.drop lo) := by
    unfold bisectLeft at h2; omega
  have h4 := firstAtLeast_lt x (a.drop lo) (q - lo) h3
  rwa [List.getD_eq_getElem?_getD, List.getElem?_drop,
    Nat.add_sub_cancel' h1, ← List.getD_eq_getElem?_getD] at h4

theorem bisectLeft_at (a : List Nat) (x lo : Nat)
    (h : bisectLeft a x lo < a.length) :
    x ≤ a.getD (bisectLeft a x lo) 0 := by
  have h2 : (a.drop lo).length = a.length - lo := by simp
  have h1 : firstAtLeast x (a.drop lo) < (a.drop lo).length := by
    unfold bisectLeft at h; omega
  have h3 := firstAtLeast_ge x (a.drop lo) h1
  rwa [List.getD_eq_getElem?_getD, List.getElem?_drop,
    ← List.getD_eq_getElem?_getD] at h3

/-- The boundary computed by one iteration of the `_merge_splits` loop —
`min(bisect_left(cums, current + chunk_size, lo=ci) - 1, n)`, bumped by one
when it equals `ci` — is exactly the furthest boundary `nb > ci` with
`cum nb - cum ci < chunk_size`, clamped to `ci + 1`. -/
theorem codeNextBoundary_eq (cs : Nat) (ws : Bool) (tcs : List Nat)
    (ci : Nat) (hcs : 1 ≤ cs) (hci : ci < tcs.length) :
    (if min (bisectLeft (cumulativeCounts ws tcs)
          ((cumulativeCounts ws tcs).getD ci 0 + cs) ci - 1) tcs.length = ci
      then ci + 1
      else min (bisectLeft (cumulativeCounts ws tcs)
          ((cumulativeCounts ws tcs).getD ci 0 + cs) ci - 1) tcs.length) =
      specNextBoundary cs (cumCost ws tcs) tcs.length ci := by
  set n := tcs.length with hn
  set cums := cumulativeCounts ws tcs with hcums
  set cumf := cumCost ws tcs with hcumf
  have hlen : cums.length = n + 1 := cumulativeCounts_length ws tcs
  have hgetD : ∀ i, i ≤ n → cums.getD i 0 = cumf i := fun i hi =>
    cumulativeCounts_getD ws tcs i hi
  have hmono : ∀ {i j : Nat}, i ≤ j → cumf i ≤ cumf j := fun hij =>
    cumCost_mono ws tcs hij
  rw [hgetD ci (le_of_lt hci)]
  set x := cumf ci + cs with hx
  set p := bisectLeft cums x ci with hp
  have hp_lo : ci ≤ p := bisectLeft_lo_le cums x ci
  have hp_le : p ≤ n + 1 := by
    have := bisectLeft_le cums x ci (by omega)
    omega
  have hp_ge1 : ci + 1 ≤ p := by
    by_contra hcon
    have hpci : p = ci := by omega
    have hat : x ≤ cums.getD p 0 := bisectLeft_at cums x ci (by omega)
    rw [hpci, hgetD ci (le_of_lt hci)] at hat
    omega
  by_cases hp2 : p = ci + 1
  · have hidx : min (p - 1) n = ci := by omega
    rw [hidx, if_pos rfl]
    have hge : x ≤ cumf (ci + 1) := by
      have hat : x ≤ cums.getD p 0 := bisectLeft_at cums x ci (by omega)
      rwa [hp2, hgetD (ci + 1) (by omega)] at hat
    have hfg : Nat.findGreatest (fun j => ci < j ∧ cumf j - cumf ci < cs) n
        = 0 := by
      rw [Nat.findGreatest_eq_zero_iff]
      rintro j _ hjn ⟨hcij, hlt⟩
      have h1 : cumf (ci + 1) ≤ cumf j := hmono (by omega)
      have h2 : cumf ci ≤ cumf (ci + 1) := hmono (by omega)
      omega
    unfold specNextBoundary
    rw [hfg]
    omega
  · have hp3 : ci + 2 ≤ p := by omega
    set m := min (p - 1) n with hm
    have hm_ge : ci + 1 ≤ m := by omega
    have hm_le : m ≤ n := by omega
    rw [if_neg (by omega)]
    have hPm : ci < m ∧ cumf m - cumf ci < cs := by
      refine ⟨by omega, ?_⟩
      have hb : cums.getD m 0 < x :=
        bisectLeft_before cums x ci m (by omega) (by omega)
      rw [hgetD m hm_le] at hb
      have := hmono (i := ci) (j := m) (by omega)
      omega
    have hfg_ge : m ≤
        Nat.findGreatest (fun j => ci < j ∧ cumf j - cumf ci < cs) n :=
      Nat.le_findGreatest hm_le hPm
    have hfg_le :
        Nat.findGreatest (fun j => ci < j ∧ cumf j - cumf ci < cs) n ≤ m := by
      by_contra hcon
      set fg := Nat.findGreatest (fun j => ci < j ∧ cumf j - cumf ci < cs) n
        with hfg
      have hfgn : fg ≤ n := Nat.findGreatest_le n
      have hPfg : ci < fg ∧ cumf fg - cumf ci < cs :=
        Nat.findGreatest_spec (P := fun j => ci < j ∧ cumf j - cumf ci < cs)
          hm_le hPm
      have hfgp : p ≤ fg := by omega
      have hat : x ≤ cums.getD p 0 := bisectLeft_at cums x ci (by omega)
      rw [hgetD p (by omega)] at hat
      have := hmono (i := p) (j := fg) hfgp
      omega
    unfold specNextBoundary
    omega

/-- The merge loop of `_merge_splits` computes exactly the greedy
strict-budget packing, boundary by boundary. -/
theorem mergeSplitsCore_eq_spec (cs : Nat) (ws : Bool) (splits : List Str)
    (tcs : List Nat) (hcs : 1 ≤ cs) (hlen : splits.length = tcs.length) :
    ∀ (fuel ci : Nat), tcs.length ≤ fuel + ci →
      mergeSplitsCore cs ws splits (cumulativeCounts ws tcs) fuel ci =
        specMergeAux cs ws splits (cumCost ws tcs) fuel ci
  | 0, ci => by
    intro hfuel
    have : ¬ ci < splits.length := by omega
    simp [mergeSplitsCore, specMergeAux]
  | fuel + 1, ci => by
    intro hfuel
    by_cases hci : ci < splits.length
    · have hci' : ci < tcs.length := by omega
      have hb := codeNextBoundary_eq cs ws tcs ci hcs hci'
      simp only [mergeSplitsCore, specMergeAux, if_pos hci]
      rw [hlen]
      set nb := specNextBoundary cs (cumCost ws tcs) tcs.length ci with hnb
      have hnb_ge : ci + 1 ≤ nb := by
        unfold specNextBoundary at hnb
        omega
      have hnb_le : nb ≤ tcs.length := by
        have h1 : Nat.findGreatest
            (fun j => ci < j ∧ cumCost ws tcs j - cumCost ws tcs ci < cs)
            tcs.length ≤ tcs.length := Nat.findGreatest_le _
        unfold specNextBoundary at hnb
        omega
      rw [hb]
      have hmin : min nb tcs.length = nb := Nat.min_eq_left hnb_le
      rw [hmin, cumulativeCounts_getD ws tcs nb hnb_le,
        cumulativeCounts_getD ws tcs ci (by omega)]
      have ih := mergeSplitsCore_eq_spec cs ws splits tcs hcs hlen fuel nb
        (by omega)
      rw [ih]
    · have hci' : ¬ ci < splits.length := hci
      simp [mergeSplitsCore, specMergeAux, hci']

/-- C5 counterexample: the packer is not maximal under the claim's `≤`
budget test.  With `chunk_size = 5`, counts `[3, 2, 4]` and concatenation
join, the claim predicts a first group of two fragments (cumulative `5 ≤ 5`)
but the code merges nothing; with whitespace join and counts `[2, 2]` the
claim's per-join accounting (`2 + 2 + 1 ≤ 5`) predicts one group while the
code emits two.  Both inputs satisfy the claim's premise that not every
count exceeds `chunk_size`. -/
theorem merge_splits_claim_counterexample :
    (¬ ∀ c ∈ [3, 2, 4], 5 < c) ∧
      (mergeSplits 5 [['a', 'a', 'a'], ['b', 'b'], ['c', 'c', 'c', 'c']]
          [3, 2, 4] false).toOption.map (·.1) ≠
        some (claimMergeGroups 5 false
          [['a', 'a', 'a'], ['b', 'b'], ['c', 'c', 'c', 'c']] [3, 2, 4] 4 0) ∧
      (¬ ∀ c ∈ [2, 2], 5 < c) ∧
      (mergeSplits 5 [['a'], ['b']] [2, 2] true).toOption.map (·.1) ≠
        some (claimMergeGroups 5 true [['a'], ['b']] [2, 2] 3 0) := by
  refine ⟨by decide, by decide, by decide, by decide⟩

/-- C5 amended: on equal-length inputs in which not every count exceeds a
positive `chunk_size`, `_merge_splits` returns exactly the greedy packing in
which each group is the maximal run of consecutive unconsumed fragments
whose cumulative token count — plus one per *fragment* in whitespace-join
mode — is *strictly below* `chunk_size`, clamped to at least one fragment
per group (see `specNextBoundary`), together with the per-group cumulative
costs. -/
theorem merge_splits_greedy_maximal (cs : Nat) (splits : List Str)
    (tcs : List Nat) (ws : Bool) (hcs : 1 ≤ cs)
    (hlen : splits.length = tcs.length)
    (hnotall : ¬ ∀ c ∈ tcs, cs < c) :
    mergeSplits cs splits tcs ws = .ok (specMergeSplits cs ws splits tcs) := by
  have htcs_ne : tcs ≠ [] := by
    intro h
    exact hnotall (by simp [h])
  have hsplits_ne : splits ≠ [] := by
    intro h
    rw [h] at hlen
    exact htcs_ne (List.length_eq_zero.mp hlen.symm)
  have hne : ¬ (splits.isEmpty ∨ tcs.isEmpty) := by
    simp [List.isEmpty_iff, hsplits_ne, htcs_ne]
  have hall : ¬ tcs.all (fun c => cs < c) = true := by
    rw [List.all_eq_true]
    intro h
    exact hnotall (fun c hc => by simpa using h c hc)
  unfold mergeSplits
  rw [if_neg hne, if_neg (by simp [hlen]), if_neg hall]
  unfold specMergeSplits
  rw [mergeSplitsCore_eq_spec cs ws splits tcs hcs hlen (splits.length + 1) 0
    (by omega)]

/-- C5 amended witness: the spec scenario `token_counts = [3, 3, 3]`,
`chunk_size = 5`: every group is a single fragment (adding a neighbour
would reach `6 > 5`), matching the greedy strict-budget packing. -/
theorem merge_splits_greedy_maximal_witness :
    mergeSplits 5 [['a'], ['b'], ['c']] [3, 3, 3] false =
      .ok (specMergeSplits 5 false [['a'], ['b'], ['c']] [3, 3, 3]) :=
  merge_splits_greedy_maximal 5 [['a'], ['b'], ['c']] [3, 3, 3] false
    (by decide) (by decide) (by decide)

/-! ## Claims C2, C3, C4: the recursive driver -/

/-- Field lemma: `_make_chunks` stores the fragment text unchanged. -/
theorem makeChunks_text (t : Str) (tc lv : Nat) (ft : Option Str)
    (le : Nat) : (makeChunks t tc lv ft le).text = t := by
  unfold makeChunks
  cases h : findSub t ((ft.getD t).drop le) <;> simp [h]

/-- Field lemma: `_make_chunks` stores the supplied token count. -/
theorem makeChunks_tokenCount (t : Str) (tc lv : Nat) (ft : Option Str)
    (le : Nat) : (makeChunks t tc lv ft le).tokenCount = tc := by
  unfold makeChunks
  cases h : findSub t ((ft.getD t).drop le) <;> simp [h]

/-- Field lemma: `_make_chunks` stores the supplied level. -/
theorem makeChunks_level (t : Str) (tc lv : Nat) (ft : Option Str)
    (le : Nat) : (makeChunks t tc lv ft le).level = lv := by
  unfold makeChunks
  cases h : findSub t ((ft.getD t).drop le) <;> simp [h]

/-- Offset lemma: `_make_chunks` yields ordered offsets, with
`end = start + len(text)` on a hit and `(0, 0)` on a miss. -/
theorem makeChunks_offsets (t : Str) (tc lv : Nat) (ft : Option Str)
    (le : Nat) :
    (makeChunks t tc lv ft le).startIndex ≤
        (makeChunks t tc lv ft le).endIndex ∧
      ((makeChunks t tc lv ft le).endIndex =
          (makeChunks t tc lv ft le).startIndex + t.length ∨
        ((makeChunks t tc lv ft le).startIndex = 0 ∧
          (makeChunks t tc lv ft le).endIndex = 0)) := by
  unfold makeChunks
  cases h : findSub t ((ft.getD t).drop le) with
  | none => simp [h]
  | some i => simp [h]

/-- Membership principle for the emission loop: every chunk in its output
comes from the accumulator, from the recursion on an over-budget merged
fragment, or from finalizing an in-budget merged fragment. -/
theorem emitChunks_mem (recurse : Str → List RecursiveChunk)
    (cs level : Nat) (searchText : Str) (P : RecursiveChunk → Prop) :
    ∀ (pairs : List (Str × Nat)) (acc : List RecursiveChunk),
      (∀ c ∈ acc, P c) →
      (∀ m tc, (m, tc) ∈ pairs → cs < tc → ∀ c ∈ recurse m, P c) →
      (∀ m tc lastEnd, (m, tc) ∈ pairs → ¬ cs < tc →
        P (makeChunks m tc level (some searchText) lastEnd)) →
      ∀ c ∈ emitChunks recurse cs level searchText pairs acc, P c
  | [], acc => by
    intro hacc _ _ c hc
    exact hacc c hc
  | (m, tc) :: rest, acc => by
    intro hacc hrec hfin c hc
    by_cases hbudget : cs < tc
    · rw [emitChunks, if_pos hbudget] at hc
      refine emitChunks_mem recurse cs level searchText P rest
        (acc ++ recurse m) ?_ ?_ ?_ c hc
      · intro c' hc'
        rcases List.mem_append.mp hc' with h | h
        · exact hacc c' h
        · exact hrec m tc (by simp) hbudget c' h
      · intro m' tc' hm' h' c' hc'
        exact hrec m' tc' (by simp [hm']) h' c' hc'
      · intro m' tc' lastEnd hm' h'
        exact hfin m' tc' lastEnd (by simp [hm']) h'
    · rw [emitChunks, if_neg hbudget] at hc
      refine emitChunks_mem recurse cs level searchText P rest
        (acc ++ [makeChunks m tc level (some searchText)
          (((acc.getLast?).map (·.endIndex)).getD 0)]) ?_ ?_ ?_ c hc
      · intro c' hc'
        rcases List.mem_append.mp hc' with h | h
        · exact hacc c' h
        · simp at h
          rw [h]
          exact hfin m tc _ (by simp) hbudget
      · intro m' tc' hm' h' c' hc'
        exact hrec m' tc' (by simp [hm']) h' c' hc'
      · intro m' tc' lastEnd hm' h'
        exact hfin m' tc' lastEnd (by simp [hm']) h'

/-- Budget invariant of the driver: below the terminal level a chunk is
emitted only through the `token_count ≤ chunk_size` branch. -/
theorem recursiveChunkAux_budget (tok : Tokenizer)
    (rules : List RecursiveLevel) (cs minc : Nat) :
    ∀ (fuel : Nat) (text : Str) (level : Nat) (ft : Option Str),
      level ≤ rules.length →
      ∀ c ∈ recursiveChunkAux tok rules cs minc fuel text level ft,
        c.tokenCount ≤ cs ∨ c.level = rules.length
  | 0, text, level, ft => by
    intro _ c hc
    simp [recursiveChunkAux] at hc
  | fuel + 1, text, level, ft => by
    intro hlevel c hc
    rw [recursiveChunkAux] at hc
    by_cases htext : text = []
    · rw [if_pos htext] at hc
      simp at hc
    · rw [if_neg htext] at hc
      by_cases hterm : rules.length ≤ level
      · rw [if_pos hterm] at hc
        simp at hc
        right
        rw [hc, makeChunks_level]
        omega
      · rw [if_neg hterm] at hc
        refine emitChunks_mem _ cs level _
          (fun c => c.tokenCount ≤ cs ∨ c.level = rules.length) _ []
          (by intro c' hc'; simp at hc') ?_ ?_ c hc
        · intro m tc _ _ c' hc'
          exact recursiveChunkAux_budget tok rules cs minc fuel m (level + 1)
            _ (by omega) c' hc'
        · intro m tc lastEnd _ hle
          left
          rw [makeChunks_tokenCount]
          omega

/-- C2: every Chunk Record returned by `chunk(text)` has
`token_count ≤ chunk_size`, except chunks finalized at the terminal
hierarchy level (`level = len(rules)`, where the single fragment could not
be split below budget); in particular chunks emitted at the tokenizer-window
level (`level < len(rules)`) respect the budget. -/
theorem chunk_budget (tok : Tokenizer) (rules : List RecursiveLevel)
    (cs minc : Nat) (text : Str) :
    ∀ c ∈ chunkRecords tok rules cs minc text,
      c.tokenCount ≤ cs ∨ c.level = rules.length :=
  recursiveChunkAux_budget tok rules cs minc (rules.length + 1) text 0
    (some text) (by omega)

/-- Shape invariant of the driver: offsets are ordered (with
`end = start + len(text)` unless degraded to `(0, 0)`) and the finalization
level never exceeds the hierarchy length. -/
theorem recursiveChunkAux_shape (tok : Tokenizer)
    (rules : List RecursiveLevel) (cs minc : Nat) :
    ∀ (fuel : Nat) (text : Str) (level : Nat) (ft : Option Str),
      level ≤ rules.length →
      ∀ c ∈ recursiveChunkAux tok rules cs minc fuel text level ft,
        c.startIndex ≤ c.endIndex ∧ c.level ≤ rules.length ∧
          (c.endIndex = c.startIndex + c.text.length ∨
            (c.startIndex = 0 ∧ c.endIndex = 0))
  | 0, text, level, ft => by
    intro _ c hc
    simp [recursiveChunkAux] at hc
  | fuel + 1, text, level, ft => by
    intro hlevel c hc
    rw [recursiveChunkAux] at hc
    by_cases htext : text = []
    · rw [if_pos htext] at hc
      simp at hc
    · rw [if_neg htext] at hc
      by_cases hterm : rules.length ≤ level
      · rw [if_pos hterm] at hc
        simp at hc
        subst hc
        obtain ⟨h1, h2⟩ := makeChunks_offsets text
          (estimateTokenCount tok cs text) level ft 0
        refine ⟨h1, by rw [makeChunks_level]; omega, ?_⟩
        rw [makeChunks_text]
        exact h2
      · rw [if_neg hterm] at hc
        refine emitChunks_mem _ cs level _
          (fun c => c.startIndex ≤ c.endIndex ∧ c.level ≤ rules.length ∧
            (c.endIndex = c.startIndex + c.text.length ∨
              (c.startIndex = 0 ∧ c.endIndex = 0))) _ []
          (by intro c' hc'; simp at hc') ?_ ?_ c hc
        · intro m tc _ _ c' hc'
          exact recursiveChunkAux_shape tok rules cs minc fuel m (level + 1)
            _ (by omega) c' hc'
        · intro m tc lastEnd _ _
          obtain ⟨h1, h2⟩ := makeChunks_offsets m tc level _ lastEnd
          refine ⟨h1, by rw [makeChunks_level]; omega, ?_⟩
          rw [makeChunks_text]
          exact h2

/-- A concrete one-level hierarchy splitting on commas with
attach-to-previous placement, used in witnesses. -/
def commaRule : RecursiveLevel :=
  { whitespace := false, delimiters := some [[',']],
    includeDelim := some .prev }

/-- C2 witness: with a comma rule, `chunk_size = 3` and the character
tokenizer, the chunk `("ab,", 0, 3, 3, level 0)` of `chunk("ab,cd")`
respects the budget. -/
theorem chunk_budget_witness :
    ({ text := ['a', 'b', ','], startIndex := 0, endIndex := 3,
        tokenCount := 3, level := 0 } : RecursiveChunk) ∈
        chunkRecords charTok
          [commaRule] 3 1 ['a', 'b', ',', 'c', 'd'] ∧
      ((3 : Nat) ≤ 3 ∨ (0 : Nat) = 1) :=
  ⟨by decide,
    chunk_budget charTok
      [commaRule] 3 1 ['a', 'b', ',', 'c', 'd']
      { text := ['a', 'b', ','], startIndex := 0, endIndex := 3,
        tokenCount := 3, level := 0 } (by decide)⟩

/-- C4: every element returned by `chunk(text)` in chunk-records mode is a
Chunk Record carrying its text, offsets and token count as natural numbers
(hence non-negative), with `start_index ≤ end_index` — indeed
`end_index = start_index + len(text)` unless degraded to `(0, 0)` — and a
finalization level that never exceeds the hierarchy depth. -/
theorem chunk_record_shape (tok : Tokenizer) (rules : List RecursiveLevel)
    (cs minc : Nat) (text : Str) :
    ∀ c ∈ chunkRecords tok rules cs minc text,
      c.startIndex ≤ c.endIndex ∧ c.level ≤ rules.length ∧
        (c.endIndex = c.startIndex + c.text.length ∨
          (c.startIndex = 0 ∧ c.endIndex = 0)) :=
  recursiveChunkAux_shape tok rules cs minc (rules.length + 1) text 0
    (some text) (by omega)

/-- C4 witness: the record `("cd", 3, 5, 2, level 0)` of `chunk("ab,cd")`
has ordered offsets spanning exactly its text. -/
theorem chunk_record_shape_witness :
    ({ text := ['c', 'd'], startIndex := 3, endIndex := 5,
        tokenCount := 2, level := 0 } : RecursiveChunk) ∈
        chunkRecords charTok
          [commaRule] 3 1 ['a', 'b', ',', 'c', 'd'] ∧
      ((3 : Nat) ≤ 5 ∧ (0 : Nat) ≤ 1 ∧
        ((5 : Nat) = 3 + (['c', 'd'] : Str).length ∨
          ((3 : Nat) = 0 ∧ (5 : Nat) = 0))) :=
  ⟨by decide,
    chunk_record_shape charTok
      [commaRule] 3 1 ['a', 'b', ',', 'c', 'd']
      { text := ['c', 'd'], startIndex := 3, endIndex := 5,
        tokenCount := 2, level := 0 } (by decide)⟩

/-- Projection of a Chunk Record onto the fields that are independent of
emission order: text, token count and finalization level. -/
def chunkProj (c : RecursiveChunk) : Str × Nat × Nat :=
  (c.text, c.tokenCount, c.level)

/-- The merged fragments, paired with their combined token counts, that the
driver computes at one hierarchy level (the Splitter → estimator → Packer
stage of `_recursive_chunk`, lines 265-283). -/
def levelMerged (tok : Tokenizer) (rules : List RecursiveLevel)
    (cs minc : Nat) (text : Str) (level : Nat) : List (Str × Nat) :=
  let rule := rules.getD level default
  let splits := splitText tok cs minc text rule
  let tcs := splits.map (estimateTokenCount tok cs)
  let md :=
    if rule.delimiters = none then
      if rule.whitespace then
        (mergeSplits cs splits tcs true).toOption.getD ([], [])
      else (splits, tcs)
    else (mergeSplits cs splits tcs false).toOption.getD ([], [])
  md.1.zip md.2

/-- The emission loop, projected onto `(text, token_count, level)`: an
over-budget fragment contributes the recursion's projected chunks, an
in-budget one a single `(fragment, count, level)` triple; the
`last_chunk_end_index` bookkeeping affects offsets only. -/
theorem emitChunks_map_chunkProj (recurse : Str → List RecursiveChunk)
    (cs level : Nat) (searchText : Str) :
    ∀ (pairs : List (Str × Nat)) (acc : List RecursiveChunk),
      (emitChunks recurse cs level searchText pairs acc).map chunkProj =
        acc.map chunkProj ++ pairs.flatMap (fun p =>
          if cs < p.2 then (recurse p.1).map chunkProj
          else [(p.1, p.2, level)])
  | [], acc => by simp [emitChunks]
  | (m, tc) :: rest, acc => by
    by_cases h : cs < tc
    · rw [emitChunks, if_pos h,
        emitChunks_map_chunkProj recurse cs level searchText rest _]
      simp [h]
    · rw [emitChunks, if_neg h,
        emitChunks_map_chunkProj recurse cs level searchText rest _]
      simp [h, chunkProj, makeChunks_text, makeChunks_tokenCount,
        makeChunks_level]

/-- C3: at every non-terminal hierarchy level, on non-empty input, the
driver maps each merged fragment whose token count exceeds `chunk_size` to
the chunks of the recursion on that fragment's text at `level + 1` with the
same full document reference, and finalizes every other merged fragment as
one chunk at the current level, in order — stated up to the projection onto
`(text, token_count, level)`, the fields independent of the offset
bookkeeping. -/
theorem recursive_descent_step (tok : Tokenizer)
    (rules : List RecursiveLevel) (cs minc fuel : Nat) (text : Str)
    (level : Nat) (ft : Str) (htext : text ≠ [])
    (hlevel : level < rules.length) :
    (recursiveChunkAux tok rules cs minc (fuel + 1) text level
        (some ft)).map chunkProj =
      (levelMerged tok rules cs minc text level).flatMap (fun p =>
        if cs < p.2 then
          (recursiveChunkAux tok rules cs minc fuel p.1 (level + 1)
            (some ft)).map chunkProj
        else [(p.1, p.2, level)]) := by
  rw [recursiveChunkAux, if_neg htext, if_neg (by omega)]
  simp only [Option.getD_some]
  simpa [levelMerged] using
    emitChunks_map_chunkProj
      (fun s => recursiveChunkAux tok rules cs minc fuel s (level + 1)
        (some ft))
      cs level _ _ []

/-- C3 witness: the comma rule at level 0 on `"ab,cd"` with `chunk_size 3`
(both merged fragments in budget, finalized at level 0). -/
theorem recursive_descent_step_witness :
    (recursiveChunkAux charTok
        [commaRule] 3 1 2 ['a', 'b', ',', 'c', 'd'] 0
        (some ['a', 'b', ',', 'c', 'd'])).map chunkProj =
      (levelMerged charTok
          [commaRule] 3 1 ['a', 'b', ',', 'c', 'd']
          0).flatMap (fun p =>
        if 3 < p.2 then
          (recursiveChunkAux charTok
            [commaRule] 3 1 1 p.1 1
            (some ['a', 'b', ',', 'c', 'd'])).map chunkProj
        else [(p.1, p.2, 0)]) :=
  recursive_descent_step charTok
    [commaRule] 3 1 1 ['a', 'b', ',', 'c', 'd'] 0
    ['a', 'b', ',', 'c', 'd'] (by decide) (by decide)

/-! ## Claim C1: coverage

Comparison "ignoring any whitespace reintroduced at join points" is
formalised by `rejoinsB texts whole`: the whole text can be written as
`f₀ ++ t₀ ++ f₁ ++ t₁ ++ … ++ tₙ ++ fₙ₊₁` where each `fᵢ` is a (possibly
empty) run of spaces — the joins that whitespace-mode levels drop or
reintroduce between emitted chunks. -/

/-- Decides whether a text consists only of spaces. -/
def isSpaceRun (w : Str) : Bool := w.all (fun c => c = ' ')

/-- Length of the leading run of spaces. -/
def countLeadingSpaces : Str → Nat
  | [] => 0
  | c :: rest => if c = ' ' then countLeadingSpaces rest + 1 else 0

/-- Modelled from the spec: `rejoinsB texts whole` holds when `whole` is the
concatenation of `texts` in order, with an arbitrary run of spaces allowed
before, between and after the texts (whitespace at join points ignored). -/
def rejoinsB : List Str → Str → Bool
  | [], w => isSpaceRun w
  | t :: ts, w =>
    (List.range (countLeadingSpaces w + 1)).any fun k =>
      t.isPrefixOf (w.drop k) && rejoinsB ts ((w.drop k).drop t.length)

theorem countLeadingSpaces_ge (f : Str) (hf : isSpaceRun f = true) :
    ∀ w : Str, f.length ≤ countLeadingSpaces (f ++ w) := by
  induction f with
  | nil => intro w; simp
  | cons c rest ih =>
    intro w
    have hc : c = ' ' := by
      have := (List.all_eq_true.mp hf) c (by simp)
      simpa using this
    have hrest : isSpaceRun rest = true := by
      rw [isSpaceRun, List.all_eq_true]
      intro x hx
      exact (List.all_eq_true.mp hf) x (by simp [hx])
    have := ih hrest w
    simp [countLeadingSpaces, hc]
    omega

theorem isSpaceRun_take (w : Str) (k : Nat)
    (hk : k ≤ countLeadingSpaces w) : isSpaceRun (w.take k) = true := by
  induction w generalizing k with
  | nil => simp [isSpaceRun]
  | cons c rest ih =>
    cases k with
    | zero => simp [isSpaceRun]
    | succ k' =>
      by_cases hc : c = ' '
      · have hk' : k' ≤ countLeadingSpaces rest := by
          simp [countLeadingSpaces, hc] at hk; omega
        have := ih k' hk'
        rw [isSpaceRun, List.all_eq_true] at this ⊢
        intro x hx
        rcases by simpa using hx with h | h
        · simp [h, hc]
        · exact this x h
      · simp [countLeadingSpaces, hc] at hk

theorem isSpaceRun_append (f g : Str) (hf : isSpaceRun f = true)
    (hg : isSpaceRun g = true) : isSpaceRun (f ++ g) = true := by
  rw [isSpaceRun, List.all_eq_true] at hf hg ⊢
  intro x hx
  rcases List.mem_append.mp hx with h | h
  · exact hf x h
  · exact hg x h

/-- Introduction: a space run, a text and a rejoining remainder rejoin. -/
theorem rejoinsB_cons (t : Str) (ts : List Str) (f rest : Str)
    (hf : isSpaceRun f = true) (hrest : rejoinsB ts rest = true) :
    rejoinsB (t :: ts) (f ++ t ++ rest) = true := by
  rw [rejoinsB, List.any_eq_true]
  refine ⟨f.length, ?_, ?_⟩
  · rw [List.mem_range]
    have := countLeadingSpaces_ge f hf (t ++ rest)
    rw [List.append_assoc]
    omega
  · rw [List.append_assoc, List.drop_left]
    rw [Bool.and_eq_true]
    constructor
    · exact List.isPrefixOf_iff_prefix.mpr ⟨rest, rfl⟩
    · rwa [List.drop_left]

/-- Inversion: a rejoin of `t :: ts` splits the whole text as a space run,
then `t`, then a remainder rejoined by `ts`. -/
theorem rejoinsB_cons_elim (t : Str) (ts : List Str) (w : Str)
    (h : rejoinsB (t :: ts) w = true) :
    ∃ f rest, isSpaceRun f = true ∧ w = f ++ t ++ rest ∧
      rejoinsB ts rest = true := by
  rw [rejoinsB, List.any_eq_true] at h
  obtain ⟨k, hk, hpred⟩ := h
  rw [List.mem_range] at hk
  rw [Bool.and_eq_true] at hpred
  obtain ⟨hpre, hrest⟩ := hpred
  obtain ⟨r, hr⟩ := List.isPrefixOf_iff_prefix.mp hpre
  refine ⟨w.take k, r, isSpaceRun_take w k (by omega), ?_, ?_⟩
  · rw [List.append_assoc, hr, List.take_append_drop]
  · have : (w.drop k).drop t.length = r := by
      rw [← hr, List.drop_left]
    rwa [this] at hrest

/-- A leading space run can be absorbed into a rejoin. -/
theorem rejoinsB_absorb_lead (ts : List Str) (f w : Str)
    (hf : isSpaceRun f = true) (h : rejoinsB ts w = true) :
    rejoinsB ts (f ++ w) = true := by
  cases ts with
  | nil => exact isSpaceRun_append f w hf (by simpa [rejoinsB] using h)
  | cons t ts' =>
    obtain ⟨f', rest, hf', hw, hrest⟩ := rejoinsB_cons_elim t ts' w h
    have : f ++ w = (f ++ f') ++ t ++ rest := by
      rw [hw]; simp [List.append_assoc]
    rw [this]
    exact rejoinsB_cons t ts' (f ++ f') rest (isSpaceRun_append f f' hf hf')
      hrest

/-- A trailing space run can be absorbed into a rejoin. -/
theorem rejoinsB_absorb_trail (ts : List Str) (w f : Str)
    (h : rejoinsB ts w = true) (hf : isSpaceRun f = true) :
    rejoinsB ts (w ++ f) = true := by
  induction ts generalizing w with
  | nil => exact isSpaceRun_append w f (by simpa [rejoinsB] using h) hf
  | cons t ts' ih =>
    obtain ⟨f', rest, hf', hw, hrest⟩ := rejoinsB_cons_elim t ts' w h
    have : w ++ f = f' ++ t ++ (rest ++ f) := by
      rw [hw]; simp [List.append_assoc]
    rw [this]
    exact rejoinsB_cons t ts' f' (rest ++ f) hf' (ih rest hrest)

/-- Rejoins compose along concatenation of the whole texts. -/
theorem rejoinsB_append (ts1 ts2 : List Str) (w1 w2 : Str)
    (h1 : rejoinsB ts1 w1 = true) (h2 : rejoinsB ts2 w2 = true) :
    rejoinsB (ts1 ++ ts2) (w1 ++ w2) = true := by
  induction ts1 generalizing w1 with
  | nil =>
    exact rejoinsB_absorb_lead ts2 w1 w2 (by simpa [rejoinsB] using h1) h2
  | cons t ts' ih =>
    obtain ⟨f, rest, hf, hw, hrest⟩ := rejoinsB_cons_elim t ts' w1 h1
    have : w1 ++ w2 = f ++ t ++ (rest ++ w2) := by
      rw [hw]; simp [List.append_assoc]
    rw [this]
    exact rejoinsB_cons t (ts' ++ ts2) f (rest ++ w2) hf (ih rest hrest)

/-- A single text rejoins itself. -/
theorem rejoinsB_single (t : Str) : rejoinsB [t] t = true := by
  have := rejoinsB_cons t [] [] [] rfl (by rfl)
  simpa using this

/-- Rejoins compose across a dropped single-space join. -/
theorem rejoinsB_append_space (ts1 ts2 : List Str) (w1 w2 : Str)
    (h1 : rejoinsB ts1 w1 = true) (h2 : rejoinsB ts2 w2 = true) :
    rejoinsB (ts1 ++ ts2) (w1 ++ [' '] ++ w2) = true := by
  rw [List.append_assoc]
  exact rejoinsB_append ts1 ts2 w1 ([' '] ++ w2) h1
    (rejoinsB_absorb_lead ts2 [' '] w2 rfl h2)

/-- Removal of every occurrence of one character. -/
def eraseChar (x : Char) (s : Str) : Str := s.filter (fun c => c ≠ x)

theorem eraseChar_append (x : Char) (s t : Str) :
    eraseChar x (s ++ t) = eraseChar x s ++ eraseChar x t := by
  simp [eraseChar]

theorem eraseChar_of_not_mem (x : Char) (s : Str) (h : x ∉ s) :
    eraseChar x s = s := by
  rw [eraseChar, List.filter_eq_self]
  intro c hc
  simp
  intro hcx
  exact h (hcx ▸ hc)

/-- The separator-erasure invariant of Python's `str.replace`: replacing a
separator-free pattern by a replacement whose separator-erasure is the
pattern leaves the separator-erasure of the text unchanged. -/
theorem eraseChar_replaceAllAux (x : Char) (pat rep : Str)
    (hpat : x ∉ pat) (hrep : eraseChar x rep = pat) :
    ∀ (fuel : Nat) (s : Str), s.length ≤ fuel →
      eraseChar x (replaceAllAux pat rep fuel s) = eraseChar x s
  | fuel, [] => by
    intro _
    cases fuel <;> simp [replaceAllAux]
  | 0, c :: rest => by
    intro h
    simp at h
  | fuel + 1, c :: rest => by
    intro hlen
    rw [replaceAllAux]
    by_cases hpre : pat ≠ [] ∧ pat.isPrefixOf (c :: rest)
    · rw [if_pos hpre]
      obtain ⟨r, hr⟩ := List.isPrefixOf_iff_prefix.mp hpre.2
      have hdrop : (c :: rest).drop pat.length = r := by
        rw [← hr, List.drop_left]
      have hrec := eraseChar_replaceAllAux x pat rep hpat hrep fuel
        ((c :: rest).drop pat.length)
        (by
          have h1 : ((c :: rest).drop pat.length).length =
              (c :: rest).length - pat.length := by simp
          have h2 : 1 ≤ pat.length := by
            cases hp : pat with
            | nil => exact absurd hp hpre.1
            | cons a l => simp
          simp at hlen h1 ⊢
          omega)
      rw [eraseChar_append, hrec, hdrop, ← hr, eraseChar_append,
        eraseChar_of_not_mem x pat hpat, hrep]
    · rw [if_neg hpre]
      have hrec := eraseChar_replaceAllAux x pat rep hpat hrep fuel rest
        (by simp at hlen ⊢; omega)
      by_cases hcx : c = x
      · simp [eraseChar, hcx] at hrec ⊢
        exact hrec
      · simp [eraseChar, hcx] at hrec ⊢
        exact hrec

theorem eraseChar_replaceAll (x : Char) (s pat rep : Str) (hpat : x ∉ pat)
    (hrep : eraseChar x rep = pat) :
    eraseChar x (replaceAll s pat rep) = eraseChar x s :=
  eraseChar_replaceAllAux x pat rep hpat hrep s.length s (le_refl _)

/-- The delimiter-rewrite chain of `_split_text` preserves separator-erasure
for `prev` and `next` placements (the separator-free delimiter stays in the
text; only separator marks are added). -/
theorem eraseChar_applyDelims (inc : Option IncludeDelim) (ds : List Str)
    (hinc : inc ≠ none) (hds : ∀ d ∈ ds, sepChar ∉ d) :
    ∀ text : Str,
      eraseChar sepChar (applyDelims inc ds text) = eraseChar sepChar text := by
  induction ds with
  | nil => intro text; cases inc with
    | none => exact absurd rfl hinc
    | some p => cases p <;> simp [applyDelims]
  | cons d ds' ih =>
    intro text
    have hd : sepChar ∉ d := hds d (by simp)
    have hds' : ∀ d' ∈ ds', sepChar ∉ d' := fun d' h' => hds d' (by simp [h'])
    have ih' := ih hds'
    cases inc with
    | none => exact absurd rfl hinc
    | some p =>
      cases p with
      | prev =>
        rw [applyDelims, List.foldl_cons]
        have step : eraseChar sepChar (replaceAll text d (d ++ [sepChar])) =
            eraseChar sepChar text := by
          refine eraseChar_replaceAll sepChar text d (d ++ [sepChar]) hd ?_
          rw [eraseChar_append, eraseChar_of_not_mem sepChar d hd]
          simp [eraseChar]
        have := ih' (replaceAll text d (d ++ [sepChar]))
        rw [applyDelims] at this
        rw [this, step]
      | next =>
        rw [applyDelims, List.foldl_cons]
        have step : eraseChar sepChar (replaceAll text d (sepChar :: d)) =
            eraseChar sepChar text := by
          refine eraseChar_replaceAll sepChar text d (sepChar :: d) hd ?_
          have : sepChar :: d = [sepChar] ++ d := rfl
          rw [this, eraseChar_append, eraseChar_of_not_mem sepChar d hd]
          simp [eraseChar]
        have := ih' (replaceAll text d (sepChar :: d))
        rw [applyDelims] at this
        rw [this, step]

/-- Splitting always yields at least one part. -/
theorem splitOnChar_ne_nil (x : Char) : ∀ l : Str, splitOnChar x l ≠ []
  | [] => by simp [splitOnChar]
  | c :: rest => by
    by_cases hc : c = x
    · simp [splitOnChar, hc]
    · rw [splitOnChar, if_neg hc]
      cases splitOnChar x rest <;> simp

/-- Unfolding of `List.intercalate` on a list with at least two parts. -/
theorem intercalate_cons₂ (s a : Str) (l : List Str) (hl : l ≠ []) :
    List.intercalate s (a :: l) = a ++ s ++ List.intercalate s l := by
  cases l with
  | nil => exact absurd rfl hl
  | cons b t => simp [List.intercalate, List.intersperse]

/-- Flattening the split parts erases exactly the separator occurrences. -/
theorem splitOnChar_flatten (x : Char) :
    ∀ l : Str, (splitOnChar x l).flatten = eraseChar x l
  | [] => by simp [splitOnChar, eraseChar]
  | c :: rest => by
    have ih := splitOnChar_flatten x rest
    by_cases hc : c = x
    · rw [splitOnChar, if_pos hc]
      simp only [List.flatten_cons, List.nil_append, ih]
      simp [eraseChar, hc]
    · obtain ⟨h, t, hsp⟩ : ∃ h t, splitOnChar x rest = h :: t := by
        cases hsp : splitOnChar x rest with
        | nil => exact absurd hsp (splitOnChar_ne_nil x rest)
        | cons h t => exact ⟨h, t, rfl⟩
      rw [splitOnChar, if_neg hc, hsp]
      have hht : h ++ t.flatten = eraseChar x rest := by
        rw [hsp] at ih
        simpa using ih
      simp only [List.flatten_cons, List.cons_append, hht]
      simp [eraseChar, hc]

/-- Interleaving the separator between the split parts restores the text. -/
theorem splitOnChar_intercalate (x : Char) :
    ∀ l : Str, List.intercalate [x] (splitOnChar x l) = l
  | [] => by simp [splitOnChar, List.intercalate]
  | c :: rest => by
    have ih := splitOnChar_intercalate x rest
    by_cases hc : c = x
    · rw [splitOnChar, if_pos hc,
        intercalate_cons₂ [x] [] (splitOnChar x rest)
          (splitOnChar_ne_nil x rest), ih]
      simp [hc]
    · obtain ⟨h, t, hsp⟩ : ∃ h t, splitOnChar x rest = h :: t := by
        cases hsp : splitOnChar x rest with
        | nil => exact absurd hsp (splitOnChar_ne_nil x rest)
        | cons h t => exact ⟨h, t, rfl⟩
      rw [splitOnChar, if_neg hc, hsp]
      rw [hsp] at ih
      cases t with
      | nil =>
        simp [List.intercalate] at ih ⊢
        simp [ih]
      | cons t1 t2 =>
        rw [intercalate_cons₂ [x] (c :: h) (t1 :: t2) (by simp)]
        rw [intercalate_cons₂ [x] h (t1 :: t2) (by simp)] at ih
        rw [← ih]
        simp

/-- Every character of a split part occurs in the original text. -/
theorem splitOnChar_chars (x : Char) :
    ∀ (l : Str) (p : Str), p ∈ splitOnChar x l → ∀ c ∈ p, c ∈ l
  | [], p => by
    intro hp c hc
    simp [splitOnChar] at hp
    subst hp
    simp at hc
  | a :: rest, p => by
    intro hp c hc
    by_cases ha : a = x
    · rw [splitOnChar, if_pos ha] at hp
      rcases by simpa using hp with h | h
      · subst h; simp at hc
      · exact List.mem_cons_of_mem a (splitOnChar_chars x rest p h c hc)
    · rw [splitOnChar, if_neg ha] at hp
      cases hsp : splitOnChar x rest with
      | nil => exact absurd hsp (splitOnChar_ne_nil x rest)
      | cons h t =>
        rw [hsp] at hp
        rcases by simpa using hp with h1 | h1
        · subst h1
          rcases by simpa using hc with h2 | h2
          · simp [h2]
          · have : h ∈ splitOnChar x rest := by rw [hsp]; simp
            exact List.mem_cons_of_mem a
              (splitOnChar_chars x rest h this c h2)
        · have : p ∈ splitOnChar x rest := by rw [hsp]; simp [h1]
          exact List.mem_cons_of_mem a (splitOnChar_chars x rest p this c hc)

/-- Discarding empty parts does not change the concatenation. -/
theorem filter_ne_nil_flatten : ∀ parts : List Str,
    ((parts.filter (· ≠ [])).flatten) = parts.flatten
  | [] => rfl
  | p :: rest => by
    have ih := filter_ne_nil_flatten rest
    simp only [ne_eq, decide_not] at ih ⊢
    by_cases hp : p = []
    · rw [List.filter_cons_of_neg (by simp [hp]), ih, hp]
      simp
    · rw [List.filter_cons_of_pos (by simp [hp])]
      simp [ih]

/-- The short-split merge preserves concatenation (helper form, for
non-empty fragments as produced by delimiter-mode splitting). -/
theorem mergeShort_flatten (minc : Nat) (splits : List Str)
    (hne : ∀ s ∈ splits, s ≠ []) :
    (mergeShort minc splits).flatten = splits.flatten := by
  have h1 := mergeShortGroupsAux_flatten minc splits [] hne
    (by intro s hs; simp at hs)
  have h2 := mergeShortGroupsAux_map_flatten minc splits []
  simp only [List.flatten_nil] at h2
  rw [mergeShort, ← h2, ← List.flatten_flatten, h1]
  simp

/-- Characters of a short-merged fragment come from the input fragments. -/
theorem mergeShort_chars (minc : Nat) (splits : List Str)
    (hne : ∀ s ∈ splits, s ≠ []) :
    ∀ m ∈ mergeShort minc splits, ∀ c ∈ m, c ∈ splits.flatten := by
  have h1 := mergeShortGroupsAux_flatten minc splits [] hne
    (by intro s hs; simp at hs)
  have h2 := mergeShortGroupsAux_map_flatten minc splits []
  simp only [List.flatten_nil] at h2
  intro m hm c hc
  rw [mergeShort, ← h2] at hm
  obtain ⟨g, hg, hgm⟩ := List.mem_map.mp hm
  rw [← hgm] at hc
  obtain ⟨p, hp, hcp⟩ := List.mem_flatten.mp hc
  have hps : p ∈ splits := by
    have : p ∈ (mergeShortGroupsAux minc splits []).flatten :=
      List.mem_flatten.mpr ⟨g, hg, hp⟩
    rwa [h1] at this
  exact List.mem_flatten.mpr ⟨p, hps, hcp⟩

/-- Tokenizer windows concatenate back to the encoded sequence. -/
theorem windowsAux_flatten (cs : Nat) (hcs : 1 ≤ cs) :
    ∀ (fuel : Nat) (l : List Nat), l.length ≤ fuel →
      (windowsAux cs fuel l).flatten = l
  | fuel, [] => by cases fuel <;> simp [windowsAux]
  | 0, c :: rest => by intro h; simp at h
  | fuel + 1, c :: rest => by
    intro h
    rw [windowsAux]
    have ih := windowsAux_flatten cs hcs fuel ((c :: rest).drop cs)
      (by simp at h ⊢; omega)
    simp only [List.flatten_cons, ih, List.take_append_drop]

theorem windows_flatten (cs : Nat) (l : List Nat) (hcs : 1 ≤ cs) :
    (windows cs l).flatten = l :=
  windowsAux_flatten cs hcs l.length l (le_refl _)

/-- The character tokenizer satisfies the window-decode roundtrip. -/
theorem charTok_roundtrip (cs : Nat) (hcs : 1 ≤ cs) (s : Str) :
    (charTok.decodeBatch (windows cs (charTok.encode s))).flatten = s := by
  show ((windows cs (s.map Char.toNat)).map
    (fun l => l.map Char.ofNat)).flatten = s
  have h : (windows cs (s.map Char.toNat)).map (fun l => l.map Char.ofNat) =
      (windows cs (s.map Char.toNat)).map (List.map Char.ofNat) := rfl
  rw [h, ← List.map_flatten, windows_flatten cs _ hcs, List.map_map]
  have h2 : Char.ofNat ∘ Char.toNat = id := by
    funext c
    simp [Char.ofNat_toNat]
  rw [h2, List.map_id]

/-- Joining with a separator distributes over appending non-empty lists of
parts. -/
theorem intercalate_append (s : Str) (l1 : List Str) :
    ∀ l2 : List Str, l1 ≠ [] → l2 ≠ [] →
      List.intercalate s (l1 ++ l2) =
        List.intercalate s l1 ++ s ++ List.intercalate s l2 := by
  induction l1 with
  | nil => intro l2 h _; exact absurd rfl h
  | cons a l1' ih =>
    intro l2 _ h2
    cases l1' with
    | nil =>
      simp only [List.cons_append, List.nil_append]
      rw [intercalate_cons₂ s a l2 h2]
      simp [List.intercalate]
    | cons b t =>
      rw [List.cons_append, intercalate_cons₂ s a ((b :: t) ++ l2) (by simp),
        intercalate_cons₂ s a (b :: t) (by simp), ih l2 (by simp) h2]
      simp [List.append_assoc]

/-- Characters of a separator-join come from the parts or the separator. -/
theorem intercalate_chars (s : Str) (l : List Str) :
    ∀ c : Char, c ∈ List.intercalate s l → (∃ m ∈ l, c ∈ m) ∨ c ∈ s := by
  induction l with
  | nil => intro c hc; simp [List.intercalate] at hc
  | cons a l' ih =>
    intro c hc
    cases l' with
    | nil =>
      have hib : List.intercalate s [a] = a := by simp [List.intercalate]
      rw [hib] at hc
      exact Or.inl ⟨a, by simp, hc⟩
    | cons b t =>
      rw [intercalate_cons₂ s a (b :: t) (by simp)] at hc
      have hc' : c ∈ a ∨ c ∈ s ∨ c ∈ List.intercalate s (b :: t) := by
        simpa using hc
      rcases hc' with h | h | h
      · exact Or.inl ⟨a, by simp, h⟩
      · exact Or.inr h
      · rcases ih c h with ⟨m, hm, hcm⟩ | h
        · refine Or.inl ⟨m, ?_, hcm⟩
          simp [List.mem_cons] at hm ⊢
          tauto
        · exact Or.inr h

/-- One boundary step of the greedy packer advances. -/
theorem specNextBoundary_ge (cs : Nat) (cum : Nat → Nat) (n ci : Nat) :
    ci + 1 ≤ specNextBoundary cs cum n ci :=
  le_max_left _ _

/-- One boundary step of the greedy packer stays within the fragments. -/
theorem specNextBoundary_le (cs : Nat) (cum : Nat → Nat) (n ci : Nat)
    (h : ci < n) : specNextBoundary cs cum n ci ≤ n :=
  max_le h (Nat.findGreatest_le n)

/-- Exhausted-input step of the greedy packer. -/
theorem specMergeAux_stop (cs : Nat) (ws : Bool) (splits : List Str)
    (cum : Nat → Nat) (fuel ci : Nat) (h : ¬ ci < splits.length) :
    specMergeAux cs ws splits cum fuel ci = ([], []) := by
  cases fuel <;> simp [specMergeAux, h]

/-- Non-exhausted step of the greedy packer emits a group. -/
theorem specMergeAux_ne_nil (cs : Nat) (ws : Bool) (splits : List Str)
    (cum : Nat → Nat) (fuel ci : Nat) (h : ci < splits.length) :
    (specMergeAux cs ws splits cum (fuel + 1) ci).1 ≠ [] := by
  simp [specMergeAux, h]

/-- The packer's two outputs stay parallel. -/
theorem specMergeAux_lengths (cs : Nat) (ws : Bool) (splits : List Str)
    (cum : Nat → Nat) :
    ∀ (fuel ci : Nat),
      (specMergeAux cs ws splits cum fuel ci).1.length =
        (specMergeAux cs ws splits cum fuel ci).2.length
  | 0, ci => rfl
  | fuel + 1, ci => by
    by_cases h : ci < splits.length
    · simp [specMergeAux, h, specMergeAux_lengths cs ws splits cum fuel]
    · simp [specMergeAux, h]

/-- Concatenation-mode packing preserves the concatenation of the
fragments. -/
theorem specMergeAux_flatten (cs : Nat) (splits : List Str)
    (cum : Nat → Nat) :
    ∀ (fuel ci : Nat), splits.length ≤ fuel + ci →
      ((specMergeAux cs false splits cum fuel ci).1).flatten =
        (splits.drop ci).flatten
  | 0, ci => by
    intro h
    rw [specMergeAux_stop cs false splits cum 0 ci (by omega)]
    simp [List.drop_eq_nil_of_le (by omega : splits.length ≤ ci)]
  | fuel + 1, ci => by
    intro h
    by_cases hci : ci < splits.length
    · set nb := specNextBoundary cs cum splits.length ci with hnb
      have hnb1 : ci + 1 ≤ nb := specNextBoundary_ge cs cum splits.length ci
      have hnb2 : nb ≤ splits.length :=
        specNextBoundary_le cs cum splits.length ci hci
      have ih := specMergeAux_flatten cs splits cum fuel nb (by omega)
      simp only [specMergeAux, if_pos hci, Bool.false_eq_true, if_false,
        List.flatten_cons, ← hnb]
      rw [ih]
      have hdd : (splits.drop ci).drop (nb - ci) = splits.drop nb := by
        rw [List.drop_drop]
        congr 1
        omega
      rw [← hdd, ← List.flatten_append, List.take_append_drop]
    · rw [specMergeAux_stop cs false splits cum _ ci hci]
      simp [List.drop_eq_nil_of_le (by omega : splits.length ≤ ci)]

/-- Whitespace-mode packing preserves the single-space join of the
fragments (groups are joined internally with the same space that is dropped
between groups). -/
theorem specMergeAux_intercalate (cs : Nat) (splits : List Str)
    (cum : Nat → Nat) :
    ∀ (fuel ci : Nat), splits.length ≤ fuel + ci →
      List.intercalate [' '] ((specMergeAux cs true splits cum fuel ci).1) =
        List.intercalate [' '] (splits.drop ci)
  | 0, ci => by
    intro h
    rw [specMergeAux_stop cs true splits cum 0 ci (by omega)]
    simp [List.drop_eq_nil_of_le (by omega : splits.length ≤ ci),
      List.intercalate]
  | fuel + 1, ci => by
    intro h
    by_cases hci : ci < splits.length
    · set nb := specNextBoundary cs cum splits.length ci with hnb
      have hnb1 : ci + 1 ≤ nb := specNextBoundary_ge cs cum splits.length ci
      have hnb2 : nb ≤ splits.length :=
        specNextBoundary_le cs cum splits.length ci hci
      have hdd : (splits.drop ci).drop (nb - ci) = splits.drop nb := by
        rw [List.drop_drop]
        congr 1
        omega
      have hgrp_ne : (splits.drop ci).take (nb - ci) ≠ [] := by
        have h1 : ((splits.drop ci).take (nb - ci)).length =
            min (nb - ci) (splits.length - ci) := by simp
        intro hnil
        rw [hnil] at h1
        simp only [List.length_nil] at h1
        omega
      simp only [specMergeAux, if_pos hci, if_true, ← hnb]
      by_cases hend : nb < splits.length
      · have ih := specMergeAux_intercalate cs splits cum fuel nb (by omega)
        have hfuel1 : 1 ≤ fuel := by omega
        obtain ⟨fuel', rfl⟩ : ∃ f', fuel = f' + 1 :=
          ⟨fuel - 1, by omega⟩
        rw [intercalate_cons₂ [' '] _ _
          (specMergeAux_ne_nil cs true splits cum fuel' nb hend), ih]
        have hrest_ne : splits.drop nb ≠ [] := by
          intro hnil
          have := List.drop_eq_nil_iff.mp hnil
          omega
        rw [← intercalate_append [' '] _ _ hgrp_ne hrest_ne, ← hdd,
          List.take_append_drop]
      · have hnbl : nb = splits.length := by omega
        rw [specMergeAux_stop cs true splits cum fuel nb (by omega)]
        have htake : (splits.drop ci).take (nb - ci) = splits.drop ci := by
          apply List.take_of_length_le
          simp
          omega
        simp [List.intercalate, htake]
    · rw [specMergeAux_stop cs true splits cum _ ci hci]
      simp [List.drop_eq_nil_of_le (by omega : splits.length ≤ ci),
        List.intercalate]

/-- Characters of packed fragments come from the input fragments, up to the
whitespace-join space. -/
theorem specMergeAux_chars (cs : Nat) (ws : Bool) (splits : List Str)
    (cum : Nat → Nat) :
    ∀ (fuel ci : Nat), ∀ g ∈ (specMergeAux cs ws splits cum fuel ci).1,
      ∀ c ∈ g, c ∈ splits.flatten ∨ c = ' '
  | 0, ci => by intro g hg; simp [specMergeAux] at hg
  | fuel + 1, ci => by
    intro g hg c hc
    by_cases hci : ci < splits.length
    · rw [specMergeAux] at hg
      rw [if_pos hci] at hg
      rcases by simpa using hg with h | h
      · subst h
        have hsub : ∀ m ∈ (splits.drop ci).take
            (specNextBoundary cs cum splits.length ci - ci), m ∈ splits :=
          fun m hm => List.mem_of_mem_drop (List.mem_of_mem_take hm)
        cases ws with
        | false =>
          simp only [Bool.false_eq_true, if_false] at hc
          obtain ⟨m, hm, hcm⟩ := List.mem_flatten.mp hc
          exact Or.inl (List.mem_flatten.mpr ⟨m, hsub m hm, hcm⟩)
        | true =>
          simp only [if_true] at hc
          rcases intercalate_chars [' '] _ c hc with ⟨m, hm, hcm⟩ | h
          · exact Or.inl (List.mem_flatten.mpr ⟨m, hsub m hm, hcm⟩)
          · simp at h
            exact Or.inr h
      · exact specMergeAux_chars cs ws splits cum fuel _ g h c hc
    · rw [specMergeAux_stop cs ws splits cum _ ci hci] at hg
      simp at hg

/-- Case split for the `_merge_splits` result the driver consumes: either
the guards return the fragments unchanged, or the greedy strict-budget
packing runs. -/
theorem mergeSplits_getD_cases (cs : Nat) (splits : List Str)
    (tcs : List Nat) (ws : Bool) (hcs : 1 ≤ cs)
    (hlen : splits.length = tcs.length) :
    (mergeSplits cs splits tcs ws).toOption.getD ([], []) = (splits, tcs) ∨
      (mergeSplits cs splits tcs ws).toOption.getD ([], []) =
        specMergeAux cs ws splits (cumCost ws tcs) (splits.length + 1) 0 := by
  unfold mergeSplits
  by_cases he : splits.isEmpty ∨ tcs.isEmpty
  · right
    rw [if_pos he]
    have hs : splits = [] := by
      rcases he with h | h
      · exact List.isEmpty_iff.mp h
      · have ht := List.isEmpty_iff.mp h
        rw [ht] at hlen
        exact List.length_eq_zero.mp hlen
    rw [specMergeAux_stop cs ws splits (cumCost ws tcs) _ 0
      (by rw [hs]; simp)]
    simp [Except.toOption]
  · rw [if_neg he, if_neg (by simp [hlen])]
    by_cases hall : tcs.all (fun c => cs < c) = true
    · left
      rw [if_pos hall]
      simp [Except.toOption]
    · right
      rw [if_neg hall]
      simp only [Except.toOption, Except.toOption.eq_def, Option.getD_some]
      rw [mergeSplitsCore_eq_spec cs ws splits tcs hcs hlen
        (splits.length + 1) 0 (by omega)]

/-- The merged fragments the driver consumes preserve concatenation in
direct-concatenation mode. -/
theorem merged_flatten (cs : Nat) (splits : List Str) (tcs : List Nat)
    (hcs : 1 ≤ cs) (hlen : splits.length = tcs.length) :
    (((mergeSplits cs splits tcs false).toOption.getD ([], [])).1).flatten =
      splits.flatten := by
  rcases mergeSplits_getD_cases cs splits tcs false hcs hlen with h | h <;>
    rw [h]
  exact specMergeAux_flatten cs splits (cumCost false tcs) (splits.length + 1)
    0 (by omega)

/-- The merged fragments the driver consumes preserve the single-space join
in whitespace mode. -/
theorem merged_intercalate (cs : Nat) (splits : List Str) (tcs : List Nat)
    (hcs : 1 ≤ cs) (hlen : splits.length = tcs.length) :
    List.intercalate [' ']
        (((mergeSplits cs splits tcs true).toOption.getD ([], [])).1) =
      List.intercalate [' '] splits := by
  rcases mergeSplits_getD_cases cs splits tcs true hcs hlen with h | h <;>
    rw [h]
  exact specMergeAux_intercalate cs splits (cumCost true tcs)
    (splits.length + 1) 0 (by omega)

/-- Characters of the merged fragments come from the input fragments, up to
the whitespace-join space. -/
theorem merged_chars (cs : Nat) (splits : List Str) (tcs : List Nat)
    (ws : Bool) (hcs : 1 ≤ cs) (hlen : splits.length = tcs.length) :
    ∀ m ∈ ((mergeSplits cs splits tcs ws).toOption.getD ([], [])).1,
      ∀ c ∈ m, c ∈ splits.flatten ∨ c = ' ' := by
  rcases mergeSplits_getD_cases cs splits tcs ws hcs hlen with h | h <;>
    rw [h]
  · intro m hm c hc
    exact Or.inl (List.mem_flatten.mpr ⟨m, hm, hc⟩)
  · exact specMergeAux_chars cs ws splits (cumCost ws tcs)
      (splits.length + 1) 0

/-- The merged fragment and count lists the driver consumes are parallel. -/
theorem merged_lengths (cs : Nat) (splits : List Str) (tcs : List Nat)
    (ws : Bool) (hcs : 1 ≤ cs) (hlen : splits.length = tcs.length) :
    (((mergeSplits cs splits tcs ws).toOption.getD ([], [])).1).length =
      (((mergeSplits cs splits tcs ws).toOption.getD ([], [])).2).length := by
  rcases mergeSplits_getD_cases cs splits tcs ws hcs hlen with h | h <;>
    rw [h]
  · exact hlen
  · exact specMergeAux_lengths cs ws splits (cumCost ws tcs) _ _

/-- Whitespace-mode splitting is the single-space split. -/
theorem splitText_ws (tok : Tokenizer) (cs minc : Nat) (text : Str)
    (rule : RecursiveLevel) (hws : rule.whitespace = true) :
    splitText tok cs minc text rule = splitOnChar ' ' text := by
  simp [splitText, hws]

/-- With no delimiters (or an empty, Python-falsy delimiter list) and no
whitespace mode, splitting decodes tokenizer windows. -/
theorem splitText_token (tok : Tokenizer) (cs minc : Nat) (text : Str)
    (rule : RecursiveLevel) (hws : rule.whitespace = false)
    (h : rule.delimiters = none ∨ rule.delimiters = some []) :
    splitText tok cs minc text rule =
      tok.decodeBatch (windows cs (tok.encode text)) := by
  rcases h with h | h <;> simp [splitText, hws, h]

/-- Delimiter-mode splitting preserves concatenation: with `prev`/`next`
placement, only separator marks are injected and then split away, so the
fragments concatenate to the original text as long as neither the text nor
the delimiters contain the separator character. -/
theorem splitText_delim_flatten (tok : Tokenizer) (cs minc : Nat)
    (text : Str) (rule : RecursiveLevel) (ds : List Str)
    (hws : rule.whitespace = false) (hds : rule.delimiters = some ds)
    (hdsne : ds ≠ []) (hsep : sepChar ∉ text)
    (hsepds : ∀ d ∈ ds, sepChar ∉ d) (hinc : rule.includeDelim ≠ none) :
    (splitText tok cs minc text rule).flatten = text := by
  rw [splitText, if_neg (by simp [hws]), hds]
  simp only [if_neg hdsne]
  have hne : ∀ s ∈ (splitOnChar sepChar
      (applyDelims rule.includeDelim ds text)).filter (· ≠ []), s ≠ [] := by
    intro s hs
    have := List.of_mem_filter hs
    simpa using this
  rw [mergeShort_flatten _ _ hne, filter_ne_nil_flatten,
    splitOnChar_flatten, eraseChar_applyDelims rule.includeDelim ds hinc
      hsepds text, eraseChar_of_not_mem sepChar text hsep]

/-- The emission loop, projected onto chunk texts. -/
theorem emitChunks_texts (recurse : Str → List RecursiveChunk)
    (cs level : Nat) (searchText : Str) :
    ∀ (pairs : List (Str × Nat)) (acc : List RecursiveChunk),
      (emitChunks recurse cs level searchText pairs acc).map (·.text) =
        acc.map (·.text) ++ pairs.flatMap (fun p =>
          if cs < p.2 then (recurse p.1).map (·.text) else [p.1])
  | [], acc => by simp [emitChunks]
  | (m, tc) :: rest, acc => by
    by_cases h : cs < tc
    · rw [emitChunks, if_pos h,
        emitChunks_texts recurse cs level searchText rest _]
      simp [h]
    · rw [emitChunks, if_neg h,
        emitChunks_texts recurse cs level searchText rest _]
      simp [h, makeChunks_text]

/-- Per-fragment rejoins compose along concatenation of the fragments. -/
theorem rejoinsB_flatMap_flatten (cs : Nat) (F : Str × Nat → List Str) :
    ∀ pairs : List (Str × Nat), (∀ p ∈ pairs, rejoinsB (F p) p.1 = true) →
      rejoinsB (pairs.flatMap F) ((pairs.map Prod.fst).flatten) = true
  | [] => by intro _; rfl
  | p :: rest => by
    intro hper
    have h1 := hper p (by simp)
    have h2 := rejoinsB_flatMap_flatten cs F rest
      (fun q hq => hper q (by simp [hq]))
    simp only [List.flatMap_cons, List.map_cons, List.flatten_cons]
    exact rejoinsB_append (F p) (rest.flatMap F) p.1 _ h1 h2

/-- Per-fragment rejoins compose along the single-space join of the
fragments (the join spaces are reintroduced whitespace). -/
theorem rejoinsB_flatMap_intercalate (cs : Nat) (F : Str × Nat → List Str) :
    ∀ pairs : List (Str × Nat), (∀ p ∈ pairs, rejoinsB (F p) p.1 = true) →
      rejoinsB (pairs.flatMap F)
        (List.intercalate [' '] (pairs.map Prod.fst)) = true
  | [] => by intro _; rfl
  | p :: rest => by
    intro hper
    have h1 := hper p (by simp)
    have h2 := rejoinsB_flatMap_intercalate cs F rest
      (fun q hq => hper q (by simp [hq]))
    cases rest with
    | nil =>
      simp only [List.flatMap_cons, List.flatMap_nil, List.append_nil,
        List.map_cons, List.map_nil]
      have : List.intercalate [' '] [p.1] = p.1 := by simp [List.intercalate]
      rw [this]
      exact h1
    | cons q rest' =>
      simp only [List.flatMap_cons, List.map_cons]
      rw [intercalate_cons₂ [' '] p.1 _ (by simp)]
      exact rejoinsB_append_space (F p) _ p.1 _ h1 (by
        simpa using h2)

/-- Coverage invariant of the recursive driver: with a positive budget,
valid rules (whitespace mode excludes delimiters, delimiters are
separator-free, placement is `prev`/`next`), a separator-free input and a
tokenizer whose window decoding concatenates back to its input, the chunk
texts rejoin the input text up to whitespace at join points. -/
theorem recursiveChunkAux_coverage (tok : Tokenizer)
    (rules : List RecursiveLevel) (cs minc : Nat) (hcs : 1 ≤ cs)
    (hrules : ∀ r ∈ rules, (r.whitespace = true → r.delimiters = none) ∧
      (∀ d ∈ r.delimiters.getD [], sepChar ∉ d) ∧ r.includeDelim ≠ none)
    (htok : ∀ s : Str,
      (tok.decodeBatch (windows cs (tok.encode s))).flatten = s) :
    ∀ (fuel : Nat) (text : Str) (level : Nat) (ft : Option Str),
      sepChar ∉ text → level ≤ rules.length →
      rules.length + 1 ≤ fuel + level →
      rejoinsB
        ((recursiveChunkAux tok rules cs minc fuel text level ft).map
          (·.text)) text = true
  | 0, text, level, ft => by
    intro _ hlevel hfuel
    omega
  | fuel + 1, text, level, ft => by
    intro hsep hlevel hfuel
    rw [recursiveChunkAux]
    by_cases htext : text = []
    · rw [if_pos htext, htext]
      rfl
    · rw [if_neg htext]
      by_cases hterm : rules.length ≤ level
      · rw [if_pos hterm]
        simp only [List.map_cons, List.map_nil, makeChunks_text]
        exact rejoinsB_single text
      · rw [if_neg hterm]
        set rule := rules.getD level default with hrule
        have hrule_mem : rule ∈ rules := by
          rw [hrule, List.getD_eq_getElem rules default (by omega)]
          exact List.getElem_mem _
        obtain ⟨hr1, hr2, hr3⟩ := hrules rule hrule_mem
        set splits := splitText tok cs minc text rule with hsplits
        set tcs := splits.map (estimateTokenCount tok cs) with htcs
        have hlen : splits.length = tcs.length := by rw [htcs]; simp
        have hIH : ∀ (m : Str), sepChar ∉ m →
            rejoinsB ((recursiveChunkAux tok rules cs minc fuel m (level + 1)
              (some (ft.getD text))).map (·.text)) m = true :=
          fun m hm => recursiveChunkAux_coverage tok rules cs minc hcs hrules
            htok fuel m (level + 1) (some (ft.getD text)) hm (by omega)
            (by omega)
        rcases hdel : rule.delimiters with _ | ds
        · by_cases hw : rule.whitespace = true
          · -- whitespace mode: single-space split, whitespace-join packing
            have hsplitsval : splits = splitOnChar ' ' text := by
              rw [hsplits]
              exact splitText_ws tok cs minc text rule hw
            set md := (mergeSplits cs splits tcs true).toOption.getD ([], [])
              with hmd
            have hmdlen : md.1.length = md.2.length :=
              merged_lengths cs splits tcs true hcs hlen
            have hfragsep : ∀ m ∈ md.1, sepChar ∉ m := by
              intro m hm hc
              rcases merged_chars cs splits tcs true hcs hlen m hm sepChar hc
                with h | h
              · rw [hsplitsval, splitOnChar_flatten] at h
                exact hsep (List.mem_of_mem_filter h)
              · exact absurd h (by decide)
            have hwhole : List.intercalate [' '] md.1 = text := by
              rw [hmd, merged_intercalate cs splits tcs hcs hlen, hsplitsval,
                splitOnChar_intercalate]
            simp only [hdel, hw, reduceCtorEq, if_false, if_true]
            rw [emitChunks_texts]
            simp only [List.map_nil, List.nil_append]
            have hmapfst : (md.1.zip md.2).map Prod.fst = md.1 :=
              List.map_fst_zip _ _ (le_of_eq hmdlen)
            have hper : ∀ p ∈ md.1.zip md.2,
                rejoinsB (if cs < p.2 then
                    (recursiveChunkAux tok rules cs minc fuel p.1 (level + 1)
                      (some (ft.getD text))).map (·.text)
                  else [p.1]) p.1 = true := by
              intro p hp
              have hp1 : p.1 ∈ md.1 := (List.of_mem_zip hp).1
              by_cases hb : cs < p.2
              · rw [if_pos hb]
                exact hIH p.1 (hfragsep p.1 hp1)
              · rw [if_neg hb]
                exact rejoinsB_single p.1
            have hmain := rejoinsB_flatMap_intercalate cs
              (fun p => if cs < p.2 then
                  (recursiveChunkAux tok rules cs minc fuel p.1 (level + 1)
                    (some (ft.getD text))).map (·.text)
                else [p.1])
              (md.1.zip md.2) hper
            rw [hmapfst, hwhole] at hmain
            exact hmain
          · -- token-window pass-through: fragments used unmerged
            have hw' : rule.whitespace = false := by
              cases h : rule.whitespace
              · rfl
              · exact absurd h hw
            have hsplitsval : splits =
                tok.decodeBatch (windows cs (tok.encode text)) := by
              rw [hsplits]
              exact splitText_token tok cs minc text rule hw' (Or.inl hdel)
            have hflat : splits.flatten = text := by
              rw [hsplitsval]
              exact htok text
            have hfragsep : ∀ m ∈ splits, sepChar ∉ m := by
              intro m hm hc
              have : sepChar ∈ splits.flatten :=
                List.mem_flatten.mpr ⟨m, hm, hc⟩
              rw [hflat] at this
              exact hsep this
            simp only [hdel, hw', reduceCtorEq, if_false, if_true,
              Bool.false_eq_true]
            rw [emitChunks_texts]
            simp only [List.map_nil, List.nil_append]
            have hmapfst : (splits.zip tcs).map Prod.fst = splits :=
              List.map_fst_zip _ _ (le_of_eq hlen)
            have hper : ∀ p ∈ splits.zip tcs,
                rejoinsB (if cs < p.2 then
                    (recursiveChunkAux tok rules cs minc fuel p.1 (level + 1)
                      (some (ft.getD text))).map (·.text)
                  else [p.1]) p.1 = true := by
              intro p hp
              have hp1 : p.1 ∈ splits := (List.of_mem_zip hp).1
              by_cases hb : cs < p.2
              · rw [if_pos hb]
                exact hIH p.1 (hfragsep p.1 hp1)
              · rw [if_neg hb]
                exact rejoinsB_single p.1
            have hmain := rejoinsB_flatMap_flatten cs
              (fun p => if cs < p.2 then
                  (recursiveChunkAux tok rules cs minc fuel p.1 (level + 1)
                    (some (ft.getD text))).map (·.text)
                else [p.1])
              (splits.zip tcs) hper
            rw [hmapfst, hflat] at hmain
            exact hmain
        · -- delimiter mode (possibly with the Python-falsy empty list)
          have hw' : rule.whitespace = false := by
            cases h : rule.whitespace
            · rfl
            · rw [hr1 h] at hdel
              cases hdel
          have hflat : splits.flatten = text := by
            by_cases hdsne : ds = []
            · rw [hsplits, splitText_token tok cs minc text rule hw'
                (Or.inr (by rw [hdel, hdsne]))]
              exact htok text
            · refine splitText_delim_flatten tok cs minc text rule ds hw'
                hdel hdsne hsep ?_ hr3
              intro d hd
              have := hr2 d
              rw [hdel] at this
              exact this (by simpa using hd)
          set md := (mergeSplits cs splits tcs false).toOption.getD ([], [])
            with hmd
          have hmdlen : md.1.length = md.2.length :=
            merged_lengths cs splits tcs false hcs hlen
          have hfragsep : ∀ m ∈ md.1, sepChar ∉ m := by
            intro m hm hc
            rcases merged_chars cs splits tcs false hcs hlen m hm sepChar hc
              with h | h
            · rw [hflat] at h
              exact hsep h
            · exact absurd h (by decide)
          have hwhole : md.1.flatten = text := by
            rw [hmd, merged_flatten cs splits tcs hcs hlen, hflat]
          simp only [hdel, reduceCtorEq, if_false]
          rw [emitChunks_texts]
          simp only [List.map_nil, List.nil_append]
          have hmapfst : (md.1.zip md.2).map Prod.fst = md.1 :=
            List.map_fst_zip _ _ (le_of_eq hmdlen)
          have hper : ∀ p ∈ md.1.zip md.2,
              rejoinsB (if cs < p.2 then
                  (recursiveChunkAux tok rules cs minc fuel p.1 (level + 1)
                    (some (ft.getD text))).map (·.text)
                else [p.1]) p.1 = true := by
            intro p hp
            have hp1 : p.1 ∈ md.1 := (List.of_mem_zip hp).1
            by_cases hb : cs < p.2
            · rw [if_pos hb]
              exact hIH p.1 (hfragsep p.1 hp1)
            · rw [if_neg hb]
              exact rejoinsB_single p.1
          have hmain := rejoinsB_flatMap_flatten cs
            (fun p => if cs < p.2 then
                (recursiveChunkAux tok rules cs minc fuel p.1 (level + 1)
                  (some (ft.getD text))).map (·.text)
              else [p.1])
            (md.1.zip md.2) hper
          rw [hmapfst, hwhole] at hmain
          exact hmain

/-- A dot rule with the `drop` placement (`include_delim = None`). -/
def dotDropRule : RecursiveLevel :=
  { whitespace := false, delimiters := some [['.']], includeDelim := none }

/-- The bare tokenizer-window rule (no delimiters, no whitespace). -/
def tokenRule : RecursiveLevel :=
  { whitespace := false, delimiters := none, includeDelim := some .prev }

/-- C1 counterexample: coverage fails, even ignoring whitespace at join
points, for configurations the claim quantifies over.  (a) With
`include_delim = None` the delimiter occurrences are dropped:
`chunk("a.b")` with a dot rule yields text `"ab"`.  (b) A text containing
the private separator `"✄"` loses it: `chunk("a✄b,")` with the comma rule
yields `"ab,"`.  (c) A tokenizer whose window decoding does not reproduce
its input (here the degenerate encoder) drops the whole text at the
tokenizer-window level.  In each case no interleaving of spaces restores
the input. -/
theorem chunk_coverage_counterexample :
    rejoinsB ((chunkRecords charTok [dotDropRule] 100 1
        ['a', '.', 'b']).map (·.text)) ['a', '.', 'b'] = false ∧
    rejoinsB ((chunkRecords charTok [commaRule] 100 1
        ['a', '✄', 'b', ',']).map (·.text)) ['a', '✄', 'b', ','] = false ∧
    rejoinsB ((chunkRecords zeroTok [tokenRule] 100 1
        ['a', 'b']).map (·.text)) ['a', 'b'] = false := by
  refine ⟨by decide, by decide, by decide⟩

/-- C1 amended: for every input text not containing the private separator
`"✄"`, and every configuration with a positive `chunk_size` whose rules use
`prev`/`next` delimiter placement (not `drop`), keep whitespace mode and
custom delimiters mutually exclusive, and have separator-free delimiters,
and whose tokenizer's window decoding concatenates back to its input, the
chunk texts of `chunk(text)` in chunk-records mode reproduce the input text
up to whitespace at join points (leading, trailing, or between chunks). -/
theorem chunk_coverage (tok : Tokenizer) (rules : List RecursiveLevel)
    (cs minc : Nat) (text : Str) (hcs : 1 ≤ cs) (hsep : sepChar ∉ text)
    (hrules : ∀ r ∈ rules, (r.whitespace = true → r.delimiters = none) ∧
      (∀ d ∈ r.delimiters.getD [], sepChar ∉ d) ∧ r.includeDelim ≠ none)
    (htok : ∀ s : Str,
      (tok.decodeBatch (windows cs (tok.encode s))).flatten = s) :
    rejoinsB ((chunkRecords tok rules cs minc text).map (·.text)) text
      = true :=
  recursiveChunkAux_coverage tok rules cs minc hcs hrules htok
    (rules.length + 1) text 0 (some text) hsep (by omega) (by omega)

/-- C1 amended witness: the comma rule with `chunk_size = 3` and the
character tokenizer on `"ab,cd"`; the two chunk texts `"ab,"` and `"cd"`
concatenate back to the input. -/
theorem chunk_coverage_witness :
    rejoinsB ((chunkRecords charTok [commaRule] 3 1
        ['a', 'b', ',', 'c', 'd']).map (·.text)) ['a', 'b', ',', 'c', 'd']
      = true :=
  chunk_coverage charTok [commaRule] 3 1 ['a', 'b', ',', 'c', 'd']
    (by decide) (by decide) (by decide)
    (fun s => charTok_roundtrip 3 (by decide) s)

end Chonkie
